import Mathlib

/-!
Shallow embedding of `src/simple_cross.cpp` (class `SimpleCross`), the
in-memory limit-order matching engine.

Modelling conventions:

* A parsed input line is the list of its whitespace-separated tokens
  (the result of `split(line, ' ')` in the source); the file/stdout
  driver and the tokenizer are outside the modelled core.
* Prices are exact fixed-point numbers carried as naturals in units of
  10^-5 (`100.00000` is `10000000`).  For inputs in the documented 7.5
  format, `std::stod`, the `%.5f` round-trip performed by `merge`, and
  comparisons of the resulting doubles are all exact (doubles have more
  than enough precision for 12 significant decimal digits), so the
  natural-number price keys agree with the double keys of the source.
* `std::stoi`/`std::stod` throwing (no leading digit, the exception is
  uncaught) and out-of-range vector indexing (`split_line[i]` past the
  end of the token vector) abort the process; both are modelled as
  `none` for the whole action run.
* The matching loops of `buy_cross`/`sell_cross` evaluate
  `iterator->first` *before* testing `iterator != end()`.  When the
  iterator equals `end()` (empty opposite book, or a sweep that
  consumed every level of the copied book) this dereference reads past
  the last element of the map; the short-circuited `!= end()` conjunct
  still terminates the loop afterwards, so the modelled loop stops and
  records the out-of-bounds read in the sticky `ub_end_deref` flag.
* `std::map` is modelled as a key-sorted association list (insert and
  assign keep the sort), `std::unordered_map` as an insertion-ordered
  association list; the source's symbol iteration order is in fact
  unspecified, which is discussed at claim C9.
-/

set_option synthInstance.maxSize 4000

namespace SimpleCross

/-! ### Token positions (`enum Inputs`) -/

def ACTION : Nat := 0
def OID : Nat := 1
def SYMBOL : Nat := 2
def SIDE : Nat := 3
def QTY : Nat := 4
def PX : Nat := 5

/-! ### Token parsing -/

/-- First character of a token; `std::string::operator[]` at index 0 on
an empty string yields the null character. -/
def char0 (s : String) : Char := s.toList.headD (Char.ofNat 0)

def digitVal (c : Char) : Nat := c.toNat - '0'.toNat

/-- Consume a leading run of decimal digits: accumulated value, number
of digits consumed, rest. -/
def takeDigits : List Char → Nat → Nat → Nat × Nat × List Char
  | [], acc, n => (acc, n, [])
  | c :: cs, acc, n =>
    if c.isDigit then takeDigits cs (acc * 10 + digitVal c) (n + 1)
    else (acc, n, c :: cs)

/-- Model of `std::stoi` on the tokens the engine meets: parses a
leading run of digits (trailing characters are ignored, as `stoi`
does); with no leading digit `stoi` throws and the uncaught exception
aborts the process, modelled as `none`.  Signs and leading whitespace
are outside the modelled input format. -/
def stoi? (s : String) : Option Nat :=
  match s.toList with
  | [] => none
  | c :: cs => if c.isDigit then some (takeDigits cs (digitVal c) 0).1 else none

/-- Model of `std::stod` on 7.5-format prices, scaled to units of
10^-5: a leading digit run, optionally followed by `.` and at most five
fractional digits (trailing characters ignored).  More than five
fractional digits falls outside the range on which the source's double
round-trips are exact and is left unmodelled (`none`); with no leading
digit `stod` throws, aborting the process. -/
def stod5? (s : String) : Option Nat :=
  match s.toList with
  | [] => none
  | c :: cs =>
    if c.isDigit then
      match takeDigits cs (digitVal c) 0 with
      | (ip, _, rest) =>
        match rest with
        | '.' :: ds =>
          match takeDigits ds 0 0 with
          | (fv, n, _) =>
            if n ≤ 5 then some (ip * 100000 + fv * 10 ^ (5 - n)) else none
        | _ => some (ip * 100000)
    else none

/-! ### Book data (`sub_book_t`, `book_t`)

An order resting in a book; the source stores the full order line
(`"O oid sym side qty px"`) as a string and re-parses it at each use;
every line that reaches a book has all six fields parseable, so the
string is represented by its parsed record. -/

structure Order where
  oid : Nat
  sym : String
  side : Char
  qty : Nat
  px : Nat
deriving DecidableEq

/-- One price level: `std::map<int, std::string>` keyed by oid. -/
abbrev Level := List (Nat × Order)

/-- One side of a book: `std::map<double, std::map<int, std::string>>`
keyed by price (ascending). -/
abbrev SubBook := List (Nat × Level)

/-- `std::pair<sub_book_t, sub_book_t>`: (buy side, sell side). -/
abbrev BookPair := SubBook × SubBook

/-- `book_t`: symbol to book pair, in insertion order. -/
abbrev BookMain := List (String × BookPair)

/-- `orders[order_id] = line`: sorted insert-or-assign. -/
def levelInsert (k : Nat) (o : Order) : Level → Level
  | [] => [(k, o)]
  | (k', o') :: rest =>
    if k < k' then (k, o) :: (k', o') :: rest
    else if k = k' then (k, o) :: rest
    else (k', o') :: levelInsert k o rest

/-- `orders.erase(order_id)`. -/
def levelErase (k : Nat) : Level → Level
  | [] => []
  | (k', o') :: rest => if k = k' then rest else (k', o') :: levelErase k rest

def sbFind (p : Nat) : SubBook → Option Level
  | [] => none
  | (p', l) :: rest => if p = p' then some l else sbFind p rest

/-- `book[price] = orders`: sorted insert-or-assign on the price map. -/
def sbSet (p : Nat) (lvl : Level) : SubBook → SubBook
  | [] => [(p, lvl)]
  | (p', l') :: rest =>
    if p < p' then (p, lvl) :: (p', l') :: rest
    else if p = p' then (p, lvl) :: rest
    else (p', l') :: sbSet p lvl rest

def bmFind (sym : String) : BookMain → Option BookPair
  | [] => none
  | (s, pr) :: rest => if sym = s then some pr else bmFind sym rest

def bmFindD (sym : String) (bm : BookMain) : BookPair := (bmFind sym bm).getD ([], [])

/-- Assign the book pair of a symbol in place, appending a new symbol
at the end. -/
def bmSet (sym : String) (pr : BookPair) : BookMain → BookMain
  | [] => [(sym, pr)]
  | (s, pr') :: rest =>
    if sym = s then (sym, pr) :: rest else (s, pr') :: bmSet sym pr rest

/-- `book_main[symbol]` on the `std::unordered_map` default-constructs
a missing entry. -/
def ensureSym (sym : String) (bm : BookMain) : BookMain :=
  match bmFind sym bm with
  | some _ => bm
  | none => bm ++ [(sym, ([], []))]

/-! ### Engine state and result records -/

/-- The private state of a `SimpleCross` instance: the books, the oid
index (which stores the raw accepted line and is never erased), and the
sticky flag recording that a matching-loop condition dereferenced a
past-the-end iterator. -/
structure SC where
  book_main : BookMain
  OIDs : List (Nat × List String)
  ub_end_deref : Bool

instance : DecidableEq SC
  | ⟨b₁, o₁, u₁⟩, ⟨b₂, o₂, u₂⟩ =>
    if h : b₁ = b₂ ∧ o₁ = o₂ ∧ u₁ = u₂ then
      isTrue (by obtain ⟨h₁, h₂, h₃⟩ := h; subst h₁; subst h₂; subst h₃; rfl)
    else
      isFalse (by intro he; cases he; exact h ⟨rfl, rfl, rfl⟩)

def oidsFind (k : Nat) : List (Nat × List String) → Option (List String)
  | [] => none
  | (k', v) :: rest => if k = k' then some v else oidsFind k rest

def SC.init : SC := ⟨[], [], false⟩

/-- One output line of `results_t`. -/
inductive OutRec where
  /-- `F <oid> <symbol> <fill_qty> <fill_px>` -/
  | F (oid : Nat) (sym : String) (qty : Nat) (px : Nat)
  /-- the cancel path pushes back the raw input line -/
  | Xack (toks : List String)
  /-- `P <oid> <symbol> <side> <open_qty> <ord_px>`: a stored order
  line with its first character replaced by `P` -/
  | Pline (o : Order)
  /-- `E [<oid>] <message>` -/
  | E (oid : Option Nat) (msg : String)
deriving DecidableEq

/-! ### Book maintenance (`add_to_sub_book`, `add_to_book`,
`delete_from_book`, `update_in_book`) -/

def add_to_sub_book (o : Order) (sb : SubBook) : SubBook :=
  sbSet o.px (levelInsert o.oid o ((sbFind o.px sb).getD [])) sb

def add_to_book (o : Order) (bm : BookMain) : BookMain :=
  let bm₁ := ensureSym o.sym bm
  let pr := bmFindD o.sym bm₁
  match o.side with
  | 'B' => bmSet o.sym (add_to_sub_book o pr.1, pr.2) bm₁
  | 'S' => bmSet o.sym (pr.1, add_to_sub_book o pr.2) bm₁
  | _ => bm₁

/-- Locate the level at `(sym, side, p)` (creating missing symbol entry
and level, as the chained `operator[]`s do) and replace it by `f`
applied to it. -/
def bmLevelModify (sym : String) (isBid : Bool) (p : Nat) (f : Level → Level)
    (bm : BookMain) : BookMain :=
  let bm₁ := ensureSym sym bm
  let pr := bmFindD sym bm₁
  if isBid then
    bmSet sym (sbSet p (f ((sbFind p pr.1).getD [])) pr.1, pr.2) bm₁
  else
    bmSet sym (pr.1, sbSet p (f ((sbFind p pr.2).getD [])) pr.2) bm₁

/-- `delete_from_book` keyed by the oid parsed from the passed line.
The order's symbol, side and price are re-read from the raw line stored
in `OIDs`.  A missing oid means `OIDs[order_id]` silently inserts an
empty string, whose split is an empty vector, and the subsequent
`split_order[PX]` indexes out of bounds: the process dies (`none`). -/
def delete_from_book (oid : Nat) (st : SC) : Option SC :=
  match oidsFind oid st.OIDs with
  | none => none
  | some otoks =>
    match (otoks.get? PX).bind stod5? with
    | none => none
    | some p =>
      match otoks.get? SIDE, otoks.get? SYMBOL with
      | some sd, some sym =>
        match char0 sd with
        | 'B' => some ⟨bmLevelModify sym true p (levelErase oid) st.book_main, st.OIDs, st.ub_end_deref⟩
        | 'S' => some ⟨bmLevelModify sym false p (levelErase oid) st.book_main, st.OIDs, st.ub_end_deref⟩
        | _ => some st
      | _, _ => none

/-- `update_in_book`: store the updated order line under its oid, at
the price parsed from the *original* line held in `OIDs`. -/
def update_in_book (oid : Nat) (newO : Order) (st : SC) : Option SC :=
  match oidsFind oid st.OIDs with
  | none => none
  | some otoks =>
    match (otoks.get? PX).bind stod5? with
    | none => none
    | some p =>
      match otoks.get? SIDE, otoks.get? SYMBOL with
      | some sd, some sym =>
        match char0 sd with
        | 'B' => some ⟨bmLevelModify sym true p (levelInsert oid newO) st.book_main, st.OIDs, st.ub_end_deref⟩
        | 'S' => some ⟨bmLevelModify sym false p (levelInsert oid newO) st.book_main, st.OIDs, st.ub_end_deref⟩
        | _ => some st
      | _, _ => none

/-! ### Matching (`buy_cross`, `sell_cross`) -/

/-- `append_orders_for_key`: the orders of one level in ascending map
(oid) order. -/
def append_orders_for_key (lvl : Level) : List Order := lvl.map (·.2)

/-- The inner `for (std::string& order : orders_strings)` loop of
`buy_cross`, over the copied entries of one sell level.  `qty0` is the
aggressor's original quantity token (`split_line[QTY]`), `q` its
remaining quantity.  Cases in source order: resting larger (emit the
*original* aggressor quantity and the resting price, decrement the
resting order in place, stop), exact (same records, delete the resting
order, stop), resting smaller (emit the resting quantity and price,
delete, continue). -/
def levelLoopB (aOid : Nat) (sym : String) (qty0 : Nat) :
    List (Nat × Order) → Nat → SC → Option (List OutRec × Nat × SC)
  | [], q, st => some ([], q, st)
  | (_, o) :: rest, q, st =>
    if q < o.qty then
      match update_in_book o.oid ⟨o.oid, o.sym, o.side, o.qty - q, o.px⟩ st with
      | none => none
      | some st' =>
        some ([OutRec.F aOid sym qty0 o.px, OutRec.F o.oid sym qty0 o.px], 0, st')
    else if o.qty = q then
      match delete_from_book o.oid st with
      | none => none
      | some st' =>
        some ([OutRec.F aOid sym qty0 o.px, OutRec.F o.oid sym qty0 o.px], 0, st')
    else
      match delete_from_book o.oid st with
      | none => none
      | some st' =>
        match levelLoopB aOid sym qty0 rest (q - o.qty) st' with
        | none => none
        | some (recs, q', st'') =>
          some (OutRec.F aOid sym o.qty o.px :: OutRec.F o.oid sym o.qty o.px :: recs, q', st'')

/-- The outer `while (sell_iterator->first <= price && buy_quantity > 0
&& sell_iterator != sell_book.end())` loop of `buy_cross`, over the
levels of the copied sell book in ascending price order.  Reaching the
end of the copy dereferences the end iterator before the `!= end()`
test: the loop still terminates but the past-the-end read is recorded
in `ub_end_deref`. -/
def buyLoop (aOid : Nat) (sym : String) (L qty0 : Nat) :
    List (Nat × Level) → Nat → SC → Option (List OutRec × Nat × SC)
  | [], q, st => some ([], q, ⟨st.book_main, st.OIDs, true⟩)
  | (p, lvl) :: rest, q, st =>
    if p ≤ L ∧ 0 < q then
      match levelLoopB aOid sym qty0 lvl q st with
      | none => none
      | some (r₁, q₁, st₁) =>
        match buyLoop aOid sym L qty0 rest q₁ st₁ with
        | none => none
        | some (r₂, q₂, st₂) => some (r₁ ++ r₂, q₂, st₂)
    else some ([], q, st)

/-- Inner loop of `sell_cross` over one buy level.  Identical shape to
`levelLoopB`, except that the emitted fill price is
`std::stod(split_line[PX])`: the *aggressor's* limit `L`, not the
resting order's price. -/
def levelLoopS (aOid : Nat) (sym : String) (qty0 L : Nat) :
    List (Nat × Order) → Nat → SC → Option (List OutRec × Nat × SC)
  | [], q, st => some ([], q, st)
  | (_, o) :: rest, q, st =>
    if q < o.qty then
      match update_in_book o.oid ⟨o.oid, o.sym, o.side, o.qty - q, o.px⟩ st with
      | none => none
      | some st' =>
        some ([OutRec.F aOid sym qty0 L, OutRec.F o.oid sym qty0 L], 0, st')
    else if o.qty = q then
      match delete_from_book o.oid st with
      | none => none
      | some st' =>
        some ([OutRec.F aOid sym qty0 L, OutRec.F o.oid sym qty0 L], 0, st')
    else
      match delete_from_book o.oid st with
      | none => none
      | some st' =>
        match levelLoopS aOid sym qty0 L rest (q - o.qty) st' with
        | none => none
        | some (recs, q', st'') =>
          some (OutRec.F aOid sym o.qty L :: OutRec.F o.oid sym o.qty L :: recs, q', st'')

/-- The outer `while (buy_iterator->first >= price && sell_quantity > 0
&& buy_iterator != buy_book.rend())` loop of `sell_cross`; it walks the
copied buy book through a reverse iterator, so the level list below is
the reversed (price-descending) copy, and reaching `rend()`
dereferences it before the bounds test. -/
def sellLoop (aOid : Nat) (sym : String) (L qty0 : Nat) :
    List (Nat × Level) → Nat → SC → Option (List OutRec × Nat × SC)
  | [], q, st => some ([], q, ⟨st.book_main, st.OIDs, true⟩)
  | (p, lvl) :: rest, q, st =>
    if L ≤ p ∧ 0 < q then
      match levelLoopS aOid sym qty0 L lvl q st with
      | none => none
      | some (r₁, q₁, st₁) =>
        match sellLoop aOid sym L qty0 rest q₁ st₁ with
        | none => none
        | some (r₂, q₂, st₂) => some (r₁ ++ r₂, q₂, st₂)
    else some ([], q, st)

/-- `buy_cross(line)`: `book_main[symbol]` (default-constructing a
missing symbol), copy of the sell side, parse of the price and
quantity tokens, the matching loop over the copy, and insertion of a
positive residual quantity on the aggressor's own side. -/
def buy_cross (toks : List String) (st : SC) : Option (List OutRec × SC) :=
  match toks.get? SYMBOL with
  | none => none
  | some sym =>
    let bm₁ := ensureSym sym st.book_main
    let sellCopy := (bmFindD sym bm₁).2
    let st₁ : SC := ⟨bm₁, st.OIDs, st.ub_end_deref⟩
    match (toks.get? PX).bind stod5? with
    | none => none
    | some L =>
      match (toks.get? QTY).bind stoi? with
      | none => none
      | some q0 =>
        match (toks.get? OID).bind stoi? with
        | none => none
        | some aOid =>
          match buyLoop aOid sym L q0 sellCopy q0 st₁ with
          | none => none
          | some (recs, qe, st₂) =>
            if 0 < qe then
              match toks.get? SIDE with
              | none => none
              | some sd =>
                some (recs,
                  ⟨add_to_book ⟨aOid, sym, char0 sd, qe, L⟩ st₂.book_main, st₂.OIDs, st₂.ub_end_deref⟩)
            else some (recs, st₂)

/-- `sell_cross(line)`: mirror image of `buy_cross`, walking the copied
buy side from best (highest) price downwards. -/
def sell_cross (toks : List String) (st : SC) : Option (List OutRec × SC) :=
  match toks.get? SYMBOL with
  | none => none
  | some sym =>
    let bm₁ := ensureSym sym st.book_main
    let buyCopy := (bmFindD sym bm₁).1.reverse
    let st₁ : SC := ⟨bm₁, st.OIDs, st.ub_end_deref⟩
    match (toks.get? PX).bind stod5? with
    | none => none
    | some L =>
      match (toks.get? QTY).bind stoi? with
      | none => none
      | some q0 =>
        match (toks.get? OID).bind stoi? with
        | none => none
        | some aOid =>
          match sellLoop aOid sym L q0 buyCopy q0 st₁ with
          | none => none
          | some (recs, qe, st₂) =>
            if 0 < qe then
              match toks.get? SIDE with
              | none => none
              | some sd =>
                some (recs,
                  ⟨add_to_book ⟨aOid, sym, char0 sd, qe, L⟩ st₂.book_main, st₂.OIDs, st₂.ub_end_deref⟩)
            else some (recs, st₂)

/-! ### Printing (`print_book_pair`) -/

/-- Flatten a sub-book: each level's orders in ascending oid order. -/
def flatSB (sb : SubBook) : List Order :=
  (sb.map (fun pl => append_orders_for_key pl.2)).flatten

/-- Helper compiling the two-pointer merge of `print_book_pair` into
structural recursion: `k` continues the merge once the current buy
level has been emitted. -/
def mergeAux (pb : Nat) (lb : Level) (k : SubBook → List Order) :
    SubBook → List Order
  | [] => append_orders_for_key lb ++ k []
  | (ps, ls) :: sb =>
    if pb ≤ ps then append_orders_for_key lb ++ k ((ps, ls) :: sb)
    else append_orders_for_key ls ++ mergeAux pb lb k sb

/-- The three `while` loops of `print_book_pair`: merge the two sides
by ascending price (buy level first on ties), then drain whichever side
remains. -/
def mergePrint : SubBook → SubBook → List Order
  | [], sb => flatSB sb
  | (pb, lb) :: bb, sb => mergeAux pb lb (mergePrint bb) sb

/-- `print_book_pair`: the merged list is reversed wholesale
(`all_sorted.reverse()`), which also reverses the order of entries
inside each price level. -/
def print_book_pair (bb sb : SubBook) : List Order :=
  (mergePrint bb sb).reverse

/-- The `P` action walks every symbol's book pair. -/
def snapshotAll (bm : BookMain) : List Order :=
  (bm.map (fun e => print_book_pair e.2.1 e.2.2)).flatten

/-! ### Dispatch (`check_malformed_input`, `cross_order`, `action`) -/

/-- `check_malformed_input`.  The `typeid` comparison in the source is
an always-false dead branch of unevaluated operands and is dropped.
Missing tokens at the accessed positions are out-of-bounds vector
reads (`none`). -/
def check_malformed_input (toks : List String) : Option (Bool × List OutRec) :=
  match toks.get? ACTION with
  | none => none
  | some a =>
    if a.length ≠ 1 then some (true, [OutRec.E none "Malformed action input"])
    else if char0 a = 'O' then
      match toks.get? SYMBOL with
      | none => none
      | some symTok =>
        if symTok.length > 8 then some (true, [OutRec.E none "symbol input too long"])
        else
          match toks.get? SIDE with
          | none => none
          | some sd =>
            if sd.length ≠ 1 then some (true, [OutRec.E none "Malformed side input"])
            else some (false, [])
    else some (false, [])

/-- `cross_order`: dispatch on the side character. -/
def cross_order (toks : List String) (st : SC) : Option (List OutRec × SC) :=
  match toks.get? SIDE with
  | none => none
  | some sd =>
    match char0 sd with
    | 'B' => buy_cross toks st
    | 'S' => sell_cross toks st
    | _ => some ([OutRec.E none "Incorrect side character"], st)

/-- `SimpleCross::action`.  Note the source records the oid in `OIDs`
*before* calling `cross_order`, and the `X` branch calls
`delete_from_book` with no existence check and unconditionally echoes
the input line as acknowledgement. -/
def action (toks : List String) (st : SC) : Option (List OutRec × SC) :=
  match check_malformed_input toks with
  | none => none
  | some (true, out) => some (out, st)
  | some (false, _) =>
    match toks.get? ACTION with
    | none => none
    | some a =>
      match char0 a with
      | 'O' =>
        match (toks.get? OID).bind stoi? with
        | none => none
        | some oid =>
          match oidsFind oid st.OIDs with
          | some _ => some ([OutRec.E (some oid) "Duplicate order id"], st)
          | none => cross_order toks ⟨st.book_main, st.OIDs ++ [(oid, toks)], st.ub_end_deref⟩
      | 'P' => some ((snapshotAll st.book_main).map OutRec.Pline, st)
      | 'X' =>
        match (toks.get? OID).bind stoi? with
        | none => none
        | some oid =>
          match delete_from_book oid st with
          | none => none
          | some st' => some ([OutRec.Xack toks], st')
      | _ => some ([OutRec.E none "Incorrect action character"], st)

/-- Run a stream of actions from a state, collecting each action's
output list. -/
def runActions : List (List String) → SC → Option (List (List OutRec) × SC)
  | [], st => some ([], st)
  | a :: rest, st =>
    match action a st with
    | none => none
    | some (out, st') =>
      match runActions rest st' with
      | none => none
      | some (outs, st'') => some (out :: outs, st'')

/-! ### Predicates for the stated properties -/

/-- Whether an output record is an error (`E`) record. -/
def OutRec.isE : OutRec → Bool
  | OutRec.E _ _ => true
  | _ => false

/-- The no-cross-rest invariant of the spec: for every symbol, every
nonempty bid level's price is strictly below every nonempty ask
level's price (equivalently best bid < best ask, or a side empty). -/
def Uncrossed (st : SC) : Prop :=
  ∀ e ∈ st.book_main, ∀ pb ∈ (e : String × BookPair).2.1, ∀ pa ∈ e.2.2,
    (pb : Nat × Level).2 ≠ [] → (pa : Nat × Level).2 ≠ [] → pb.1 < pa.1

/-- Every stored order of a sub-book carries the price of its level as
its own price field (true of every book the engine builds, since
levels are keyed by the stored order's parsed price). -/
def KeyedPx (sb : SubBook) : Prop :=
  ∀ pl ∈ sb, ∀ e ∈ (pl : Nat × Level).2, (e : Nat × Order).2.px = pl.1

instance (sb : SubBook) : Decidable (KeyedPx sb) :=
  decidable_of_iff (∀ pl ∈ sb, ∀ e ∈ (pl : Nat × Level).2, (e : Nat × Order).2.px = pl.1)
    Iff.rfl

instance (st : SC) : Decidable (Uncrossed st) :=
  decidable_of_iff
    (∀ e ∈ st.book_main, ∀ pb ∈ (e : String × BookPair).2.1, ∀ pa ∈ e.2.2,
      (pb : Nat × Level).2 ≠ [] → (pa : Nat × Level).2 ≠ [] → pb.1 < pa.1)
    Iff.rfl

/-- Linkage of one stored book entry at level price `p` of side `sd`
of symbol `sym`: the map key is the stored order's oid, the stored
fields match the entry's position, and the oid index holds the order's
original line whose symbol, side character and parsed price locate
exactly this level — so `delete_from_book` and `update_in_book`, which
navigate via `OIDs`, modify exactly this entry. -/
def EntryLinked (oids : List (Nat × List String)) (sym : String) (sd : Char) (p : Nat)
    (e : Nat × Order) : Prop :=
  e.1 = e.2.oid ∧ e.2.px = p ∧ e.2.side = sd ∧ e.2.sym = sym ∧
  ∃ otoks, oidsFind e.2.oid oids = some otoks ∧
    otoks.get? SYMBOL = some sym ∧
    (∃ sdTok, otoks.get? SIDE = some sdTok ∧ char0 sdTok = sd) ∧
    (otoks.get? PX).bind stod5? = some p

/-- A well-formed price level: ascending oid keys, all entries
linked. -/
def LevelWF (oids : List (Nat × List String)) (sym : String) (sd : Char) (p : Nat)
    (lvl : Level) : Prop :=
  List.Pairwise (fun a b : Nat × Order => a.1 < b.1) lvl ∧
  ∀ e ∈ lvl, EntryLinked oids sym sd p e

/-- A well-formed sub-book: ascending price keys, all levels
well-formed. -/
def SideWF (oids : List (Nat × List String)) (sym : String) (sd : Char)
    (sb : SubBook) : Prop :=
  List.Pairwise (fun a b : Nat × Level => a.1 < b.1) sb ∧
  ∀ pl ∈ sb, LevelWF oids sym sd pl.1 (pl : Nat × Level).2

/-- The engine invariant carried through the action induction: unique
symbols, both sides of every book well-formed and linked to the oid
index, and the no-cross property on nonempty levels. -/
def INV (st : SC) : Prop :=
  (st.book_main.map (fun e => e.1)).Nodup ∧
  ∀ e ∈ st.book_main, SideWF st.OIDs (e : String × BookPair).1 'B' e.2.1 ∧
    SideWF st.OIDs e.1 'S' e.2.2 ∧
    ∀ pb ∈ e.2.1, ∀ pa ∈ e.2.2,
      (pb : Nat × Level).2 ≠ [] → (pa : Nat × Level).2 ≠ [] → pb.1 < pa.1

/-! ### Concrete runs

`exampleSession` is the example session documented in the source
header (lines 76-108), token-split, with prices scaled by 10^5. -/

def exampleSession : List (List String) := [
  ["O","10000","IBM","B","10","100.00000"],
  ["O","10001","IBM","B","10","99.00000"],
  ["O","10002","IBM","S","5","101.00000"],
  ["O","10003","IBM","S","5","100.00000"],
  ["O","10004","IBM","S","5","100.00000"],
  ["X","10002"],
  ["O","10005","IBM","B","10","99.00000"],
  ["O","10006","IBM","B","10","100.00000"],
  ["O","10007","IBM","S","10","101.00000"],
  ["O","10008","IBM","S","10","102.00000"],
  ["O","10008","IBM","S","10","102.00000"],
  ["O","10009","IBM","S","10","102.00000"],
  ["P"],
  ["O","10010","IBM","B","13","102.00000"]]

/-- The outputs of a run, action by action. -/
def runOutputs (acts : List (List String)) : Option (List (List OutRec)) :=
  (runActions acts SC.init).map (fun p => p.1)

/-- C2.  The source header documents the output of the final action of
`exampleSession` (the multi-level sweep `O 10010 IBM B 13 102.00000`,
the spec's Scenario 2) as `F 10010 IBM 10 101.00000`, `F 10007 IBM 10
101.00000`, `F 10010 IBM 3 102.00000`, `F 10008 IBM 3 102.00000`: the
second match must emit the remaining aggressor quantity
`min(q, resting.open_qty) = 3`.  The code instead emits
`split_line[QTY]`, the aggressor's *original* quantity 13, in both
records of that match (while still decrementing the resting order 10008
to 7), contradicting its own documentation. -/
theorem c2_fill_qty_code_bug :
    (runOutputs exampleSession).map (fun outs => outs.getD 13 []) =
      some [OutRec.F 10010 "IBM" 10 10100000, OutRec.F 10007 "IBM" 10 10100000,
            OutRec.F 10010 "IBM" 13 10200000, OutRec.F 10008 "IBM" 13 10200000] ∧
    (runActions exampleSession SC.init).map
        (fun p => sbFind 10200000 (bmFindD "IBM" p.2.book_main).2) =
      some (some [(10008, ⟨10008, "IBM", 'S', 7, 10200000⟩),
                  (10009, ⟨10009, "IBM", 'S', 10, 10200000⟩)]) := by
  constructor <;> decide

/-- C4.  Price-time (FIFO) priority at a level, demanded by the spec
and by the source's own header ("Orders should be selected for crossing
using price-time (FIFO) priority"), fails in the code: a level is a
`std::map<int, std::string>` keyed by oid, so matching walks it in
ascending *oid* order.  Here order 5 is accepted before order 3 at the
same (IBM, B, 100.00000) level, yet the sell aggressor 9 fills order 3
and leaves order 5 untouched at its full quantity 10. -/
theorem c4_fifo_code_bug :
    (runOutputs [["O","5","IBM","B","10","100.00000"],
                 ["O","3","IBM","B","10","100.00000"],
                 ["O","9","IBM","S","5","100.00000"]]) =
      some [[], [], [OutRec.F 9 "IBM" 5 10000000, OutRec.F 3 "IBM" 5 10000000]] ∧
    (runActions [["O","5","IBM","B","10","100.00000"],
                 ["O","3","IBM","B","10","100.00000"],
                 ["O","9","IBM","S","5","100.00000"]] SC.init).map
        (fun p => sbFind 10000000 (bmFindD "IBM" p.2.book_main).1) =
      some (some [(3, ⟨3, "IBM", 'B', 5, 10000000⟩),
                  (5, ⟨5, "IBM", 'B', 10, 10000000⟩)]) := by
  constructor <;> decide

/-- C6.  `X` of an oid that is not currently open never produces
`E <oid> Order not found`.  A never-seen oid makes `delete_from_book`
read `OIDs[order_id]` (inserting an empty string), split it into an
empty vector and index `split_order[PX]` out of bounds: the process
dies (modelled `none`).  A fully-filled oid is still present in `OIDs`
(never erased), so the cancel path runs and unconditionally echoes the
line as an acknowledgement `X 1` instead of an error.  The two cases
are *not* reported identically, and neither matches the claim. -/
theorem c6_cancel_unknown_code_bug :
    runActions [["X","5"]] SC.init = none ∧
    (runOutputs [["O","1","IBM","B","5","100.00000"],
                 ["O","2","IBM","S","5","100.00000"],
                 ["X","1"]]) =
      some [[], [OutRec.F 2 "IBM" 5 10000000, OutRec.F 1 "IBM" 5 10000000],
            [OutRec.Xack ["X","1"]]] := by
  constructor <;> decide

/-- C10.  A well-formed order arriving when the opposite side of its
symbol's book is empty does rest in full with no fills, but the match
loop's condition `sell_iterator->first <= price && ... &&
sell_iterator != sell_book.end()` dereferences the begin-equals-end
iterator of the empty (freshly default-constructed) sell book before
the bounds test: the run below ends with `ub_end_deref = true`. -/
theorem c10_empty_opposite_deref_code_bug :
    runActions [["O","1","IBM","B","10","100.00000"]] SC.init =
      some ([[]],
        ⟨[("IBM", ([(10000000, [(1, ⟨1, "IBM", 'B', 10, 10000000⟩)])], []))],
         [(1, ["O","1","IBM","B","10","100.00000"])], true⟩) := by
  decide

/-- C1 counterexample.  A resting bid at 101.00000 is hit by a sell
aggressor limited at 100.00000: both fill records carry price 10000000
(the *aggressor's* limit, `std::stod(split_line[PX])` in `sell_cross`),
not the resting counterparty's price 10100000, refuting the claim's
"holds for both buy aggressors and sell aggressors". -/
theorem c1_sell_price_counterexample :
    (runOutputs [["O","1","IBM","B","5","101.00000"],
                 ["O","2","IBM","S","5","100.00000"]]) =
      some [[], [OutRec.F 2 "IBM" 5 10000000, OutRec.F 1 "IBM" 5 10000000]] ∧
    (10000000 : Nat) ≠ 10100000 := by
  constructor <;> decide

/-- C7 counterexample.  An `O` rejected for an invalid side character
is not atomic: `action` stores `OIDs[order_id] = line` *before*
`cross_order` discovers the bad side, so a later `O` with the same oid
is rejected as a duplicate, contrary to the claim. -/
theorem c7_bad_side_counterexample :
    (runOutputs [["O","7","IBM","Q","10","100.00000"],
                 ["O","7","IBM","B","10","100.00000"]]) =
      some [[OutRec.E none "Incorrect side character"],
            [OutRec.E (some 7) "Duplicate order id"]] := by
  decide

/-- C9 counterexample.  In the print of the documented session the bid
level 99.00000 holds orders 10001 (accepted 2nd) and 10005 (accepted
7th); ascending-seq order within the level would list 10001 first, but
the wholesale `all_sorted.reverse()` of the price-ascending merge makes
the code list 10005 first (descending oid within every level) — which
also contradicts the session transcript in the source header. -/
theorem c9_level_order_counterexample :
    (runOutputs (exampleSession.take 13)).map (fun outs => outs.getD 12 []) =
      some [OutRec.Pline ⟨10009, "IBM", 'S', 10, 10200000⟩,
            OutRec.Pline ⟨10008, "IBM", 'S', 10, 10200000⟩,
            OutRec.Pline ⟨10007, "IBM", 'S', 10, 10100000⟩,
            OutRec.Pline ⟨10006, "IBM", 'B', 10, 10000000⟩,
            OutRec.Pline ⟨10005, "IBM", 'B', 10, 9900000⟩,
            OutRec.Pline ⟨10001, "IBM", 'B', 10, 9900000⟩] := by
  decide

/-! ### Oid-index preservation -/

theorem delete_from_book_OIDs {oid : Nat} {st st' : SC}
    (h : delete_from_book oid st = some st') : st'.OIDs = st.OIDs := by
  unfold delete_from_book at h
  repeat' split at h
  all_goals try cases h
  all_goals rfl

theorem update_in_book_OIDs {oid : Nat} {o : Order} {st st' : SC}
    (h : update_in_book oid o st = some st') : st'.OIDs = st.OIDs := by
  unfold update_in_book at h
  repeat' split at h
  all_goals try cases h
  all_goals rfl

theorem levelLoopB_OIDs {aOid : Nat} {sym : String} {qty0 : Nat}
    (entries : List (Nat × Order)) :
    ∀ {q : Nat} {st : SC} {recs q' st'},
      levelLoopB aOid sym qty0 entries q st = some (recs, q', st') →
      st'.OIDs = st.OIDs := by
  induction entries with
  | nil =>
    intro q st recs q' st' h
    simp only [levelLoopB] at h
    cases h; rfl
  | cons e rest ih =>
    intro q st recs q' st' h
    obtain ⟨k, o⟩ := e
    simp only [levelLoopB] at h
    repeat' split at h
    all_goals try cases h
    all_goals first
      | exact update_in_book_OIDs (by assumption)
      | exact delete_from_book_OIDs (by assumption)
      | exact (ih (by assumption)).trans (delete_from_book_OIDs (by assumption))

theorem buyLoop_OIDs {aOid : Nat} {sym : String} {L qty0 : Nat}
    (levels : List (Nat × Level)) :
    ∀ {q : Nat} {st : SC} {recs q' st'},
      buyLoop aOid sym L qty0 levels q st = some (recs, q', st') →
      st'.OIDs = st.OIDs := by
  induction levels with
  | nil =>
    intro q st recs q' st' h
    simp only [buyLoop] at h
    cases h; rfl
  | cons e rest ih =>
    intro q st recs q' st' h
    obtain ⟨p, lvl⟩ := e
    simp only [buyLoop] at h
    repeat' split at h
    all_goals try cases h
    all_goals first
      | rfl
      | exact (ih (by assumption)).trans (levelLoopB_OIDs lvl (by assumption))

theorem levelLoopS_OIDs {aOid : Nat} {sym : String} {qty0 L : Nat}
    (entries : List (Nat × Order)) :
    ∀ {q : Nat} {st : SC} {recs q' st'},
      levelLoopS aOid sym qty0 L entries q st = some (recs, q', st') →
      st'.OIDs = st.OIDs := by
  induction entries with
  | nil =>
    intro q st recs q' st' h
    simp only [levelLoopS] at h
    cases h; rfl
  | cons e rest ih =>
    intro q st recs q' st' h
    obtain ⟨k, o⟩ := e
    simp only [levelLoopS] at h
    repeat' split at h
    all_goals try cases h
    all_goals first
      | exact update_in_book_OIDs (by assumption)
      | exact delete_from_book_OIDs (by assumption)
      | exact (ih (by assumption)).trans (delete_from_book_OIDs (by assumption))

theorem sellLoop_OIDs {aOid : Nat} {sym : String} {L qty0 : Nat}
    (levels : List (Nat × Level)) :
    ∀ {q : Nat} {st : SC} {recs q' st'},
      sellLoop aOid sym L qty0 levels q st = some (recs, q', st') →
      st'.OIDs = st.OIDs := by
  induction levels with
  | nil =>
    intro q st recs q' st' h
    simp only [sellLoop] at h
    cases h; rfl
  | cons e rest ih =>
    intro q st recs q' st' h
    obtain ⟨p, lvl⟩ := e
    simp only [sellLoop] at h
    repeat' split at h
    all_goals try cases h
    all_goals first
      | rfl
      | exact (ih (by assumption)).trans (levelLoopS_OIDs lvl (by assumption))

theorem buy_cross_OIDs {toks : List String} {st : SC} {recs : List OutRec} {st' : SC}
    (h : buy_cross toks st = some (recs, st')) : st'.OIDs = st.OIDs := by
  simp only [buy_cross] at h
  repeat' split at h
  all_goals try cases h
  all_goals (rename_i a b; have hh := buyLoop_OIDs _ b; exact hh)

theorem sell_cross_OIDs {toks : List String} {st : SC} {recs : List OutRec} {st' : SC}
    (h : sell_cross toks st = some (recs, st')) : st'.OIDs = st.OIDs := by
  simp only [sell_cross] at h
  repeat' split at h
  all_goals try cases h
  all_goals (rename_i a b; have hh := sellLoop_OIDs _ b; exact hh)

theorem oidsFind_append {l₁ l₂ : List (Nat × List String)} {k : Nat} {v : List String}
    (h : oidsFind k l₁ = some v) : oidsFind k (l₁ ++ l₂) = some v := by
  induction l₁ with
  | nil => cases h
  | cons e rest ih =>
    obtain ⟨k', v'⟩ := e
    simp only [oidsFind, List.cons_append] at h ⊢
    split at h
    next hkk => rw [if_pos hkk]; exact h
    next hkk => rw [if_neg hkk]; exact ih h

theorem cross_order_OIDs {toks : List String} {st : SC} {out : List OutRec} {st' : SC}
    (h : cross_order toks st = some (out, st')) : st'.OIDs = st.OIDs := by
  unfold cross_order at h
  repeat' split at h
  all_goals try cases h
  all_goals first
    | rfl
    | exact buy_cross_OIDs (by assumption)
    | exact sell_cross_OIDs (by assumption)

theorem action_oids_mono {toks : List String} {st : SC} {out : List OutRec} {st' : SC}
    {k : Nat} {v : List String}
    (h : action toks st = some (out, st'))
    (hk : oidsFind k st.OIDs = some v) : oidsFind k st'.OIDs = some v := by
  unfold action at h
  repeat' split at h
  all_goals try cases h
  all_goals try exact hk
  · rw [cross_order_OIDs h]
    exact oidsFind_append hk
  · rename_i hdel
    rw [delete_from_book_OIDs hdel]
    exact hk

theorem runActions_oids_mono {acts : List (List String)} :
    ∀ {st : SC} {outs st'} {k : Nat} {v : List String},
      runActions acts st = some (outs, st') →
      oidsFind k st.OIDs = some v → oidsFind k st'.OIDs = some v := by
  induction acts with
  | nil =>
    intro st outs st' k v h hk
    simp only [runActions] at h
    cases h; exact hk
  | cons a rest ih =>
    intro st outs st' k v h hk
    cases ha : action a st with
    | none => simp only [runActions, ha] at h; cases h
    | some p =>
      obtain ⟨out, st₁⟩ := p
      cases hr : runActions rest st₁ with
      | none => simp only [runActions, ha, hr] at h; cases h
      | some p2 =>
        obtain ⟨outs₁, st₂⟩ := p2
        simp only [runActions, ha, hr, Option.some.injEq, Prod.mk.injEq] at h
        obtain ⟨-, h2⟩ := h
        rw [← h2]
        exact ih hr (action_oids_mono ha hk)

/-- C5.  Once an oid is present in the engine's oid index, it stays
there for the engine's lifetime (no path erases `OIDs`), and every
later well-formed `O` action carrying that oid is rejected with exactly
the single record `E <oid> Duplicate order id` and no state change:
after any run `pre` from the initial state that has recorded `oid` (in
particular after any accepted `O`, whether that order is still open,
was cancelled, or was fully filled) and any further run `mid`
whatsoever, the `O` action is rejected. -/
theorem c5_duplicate_oid_rejected
    (pre mid : List (List String)) (outs₁ outs₂ : List (List OutRec))
    (st₁ st₂ : SC) (toks : List String) (oid : Nat) (v : List String)
    (h₁ : runActions pre SC.init = some (outs₁, st₁))
    (hseen : oidsFind oid st₁.OIDs = some v)
    (h₂ : runActions mid st₁ = some (outs₂, st₂))
    (hchk : check_malformed_input toks = some (false, []))
    (hact : toks.get? ACTION = some "O")
    (hoid : (toks.get? OID).bind stoi? = some oid) :
    action toks st₂ = some ([OutRec.E (some oid) "Duplicate order id"], st₂) := by
  have hseen₂ : oidsFind oid st₂.OIDs = some v := runActions_oids_mono h₂ hseen
  unfold action
  simp only [hchk, hact, hoid, hseen₂, show char0 "O" = 'O' from rfl]

/-- Closed instantiation of `c5_duplicate_oid_rejected`: order 7 is
accepted, then cancelled, and a re-submission of oid 7 is still
rejected as a duplicate. -/
theorem c5_duplicate_oid_rejected_witness :
    action ["O","7","IBM","B","5","100.00000"]
        ((runActions [["X","7"]]
          ((runActions [["O","7","IBM","B","5","100.00000"]] SC.init).getD ([], SC.init)).2).getD
            ([], SC.init)).2 =
      some ([OutRec.E (some 7) "Duplicate order id"],
        ((runActions [["X","7"]]
          ((runActions [["O","7","IBM","B","5","100.00000"]] SC.init).getD ([], SC.init)).2).getD
            ([], SC.init)).2) :=
  c5_duplicate_oid_rejected
    [["O","7","IBM","B","5","100.00000"]] [["X","7"]] _ _ _ _
    ["O","7","IBM","B","5","100.00000"] 7 ["O","7","IBM","B","5","100.00000"]
    rfl (by decide) rfl (by decide) (by decide) (by decide)

/-! ### Shape of the fill records emitted by the matching loops -/

theorem levelLoopB_shape {aOid : Nat} {sym : String} {qty0 : Nat}
    (entries : List (Nat × Order)) :
    ∀ {q : Nat} {st : SC} {recs q' st'},
      levelLoopB aOid sym qty0 entries q st = some (recs, q', st') →
      ∀ r ∈ recs, ∃ k o m a2, (k, o) ∈ entries ∧ r = OutRec.F a2 sym m o.px := by
  induction entries with
  | nil =>
    intro q st recs q' st' h r hr
    simp only [levelLoopB] at h
    cases h
    cases hr
  | cons e rest ih =>
    intro q st recs q' st' h r hr
    obtain ⟨k, o⟩ := e
    simp only [levelLoopB] at h
    split at h
    · cases hu : update_in_book o.oid ⟨o.oid, o.sym, o.side, o.qty - q, o.px⟩ st with
      | none => rw [hu] at h; cases h
      | some st₁ =>
        simp only [hu, Option.some.injEq, Prod.mk.injEq] at h
        obtain ⟨hrecs, -, -⟩ := h
        rw [← hrecs] at hr
        simp only [List.mem_cons, List.not_mem_nil, or_false] at hr
        rcases hr with rfl | rfl
        · exact ⟨k, o, qty0, aOid, List.mem_cons_self _ _, rfl⟩
        · exact ⟨k, o, qty0, o.oid, List.mem_cons_self _ _, rfl⟩
    · split at h
      · cases hd : delete_from_book o.oid st with
        | none => rw [hd] at h; cases h
        | some st₁ =>
          simp only [hd, Option.some.injEq, Prod.mk.injEq] at h
          obtain ⟨hrecs, -, -⟩ := h
          rw [← hrecs] at hr
          simp only [List.mem_cons, List.not_mem_nil, or_false] at hr
          rcases hr with rfl | rfl
          · exact ⟨k, o, qty0, aOid, List.mem_cons_self _ _, rfl⟩
          · exact ⟨k, o, qty0, o.oid, List.mem_cons_self _ _, rfl⟩
      · cases hd : delete_from_book o.oid st with
        | none => rw [hd] at h; cases h
        | some st₁ =>
          cases hrec : levelLoopB aOid sym qty0 rest (q - o.qty) st₁ with
          | none => simp only [hd, hrec] at h; cases h
          | some t =>
            obtain ⟨recs₁, q₁, st₂⟩ := t
            simp only [hd, hrec, Option.some.injEq, Prod.mk.injEq] at h
            obtain ⟨hrecs, -, -⟩ := h
            rw [← hrecs] at hr
            simp only [List.mem_cons] at hr
            rcases hr with rfl | rfl | hr
            · exact ⟨k, o, o.qty, aOid, List.mem_cons_self _ _, rfl⟩
            · exact ⟨k, o, o.qty, o.oid, List.mem_cons_self _ _, rfl⟩
            · obtain ⟨k', o', m, a2, hmem, hre⟩ := ih hrec r hr
              exact ⟨k', o', m, a2, List.mem_cons_of_mem _ hmem, hre⟩

theorem levelLoopS_shape {aOid : Nat} {sym : String} {qty0 L : Nat}
    (entries : List (Nat × Order)) :
    ∀ {q : Nat} {st : SC} {recs q' st'},
      levelLoopS aOid sym qty0 L entries q st = some (recs, q', st') →
      ∀ r ∈ recs, ∃ k o m a2, (k, o) ∈ entries ∧ r = OutRec.F a2 sym m L := by
  induction entries with
  | nil =>
    intro q st recs q' st' h r hr
    simp only [levelLoopS] at h
    cases h
    cases hr
  | cons e rest ih =>
    intro q st recs q' st' h r hr
    obtain ⟨k, o⟩ := e
    simp only [levelLoopS] at h
    split at h
    · cases hu : update_in_book o.oid ⟨o.oid, o.sym, o.side, o.qty - q, o.px⟩ st with
      | none => rw [hu] at h; cases h
      | some st₁ =>
        simp only [hu, Option.some.injEq, Prod.mk.injEq] at h
        obtain ⟨hrecs, -, -⟩ := h
        rw [← hrecs] at hr
        simp only [List.mem_cons, List.not_mem_nil, or_false] at hr
        rcases hr with rfl | rfl
        · exact ⟨k, o, qty0, aOid, List.mem_cons_self _ _, rfl⟩
        · exact ⟨k, o, qty0, o.oid, List.mem_cons_self _ _, rfl⟩
    · split at h
      · cases hd : delete_from_book o.oid st with
        | none => rw [hd] at h; cases h
        | some st₁ =>
          simp only [hd, Option.some.injEq, Prod.mk.injEq] at h
          obtain ⟨hrecs, -, -⟩ := h
          rw [← hrecs] at hr
          simp only [List.mem_cons, List.not_mem_nil, or_false] at hr
          rcases hr with rfl | rfl
          · exact ⟨k, o, qty0, aOid, List.mem_cons_self _ _, rfl⟩
          · exact ⟨k, o, qty0, o.oid, List.mem_cons_self _ _, rfl⟩
      · cases hd : delete_from_book o.oid st with
        | none => rw [hd] at h; cases h
        | some st₁ =>
          cases hrec : levelLoopS aOid sym qty0 L rest (q - o.qty) st₁ with
          | none => simp only [hd, hrec] at h; cases h
          | some t =>
            obtain ⟨recs₁, q₁, st₂⟩ := t
            simp only [hd, hrec, Option.some.injEq, Prod.mk.injEq] at h
            obtain ⟨hrecs, -, -⟩ := h
            rw [← hrecs] at hr
            simp only [List.mem_cons] at hr
            rcases hr with rfl | rfl | hr
            · exact ⟨k, o, o.qty, aOid, List.mem_cons_self _ _, rfl⟩
            · exact ⟨k, o, o.qty, o.oid, List.mem_cons_self _ _, rfl⟩
            · obtain ⟨k', o', m, a2, hmem, hre⟩ := ih hrec r hr
              exact ⟨k', o', m, a2, List.mem_cons_of_mem _ hmem, hre⟩

theorem buyLoop_shape {aOid : Nat} {sym : String} {L qty0 : Nat}
    (levels : List (Nat × Level)) :
    ∀ {q : Nat} {st : SC} {recs q' st'},
      buyLoop aOid sym L qty0 levels q st = some (recs, q', st') →
      ∀ r ∈ recs, ∃ p lvl k o m a2,
        (p, lvl) ∈ levels ∧ (k, o) ∈ lvl ∧ p ≤ L ∧ r = OutRec.F a2 sym m o.px := by
  induction levels with
  | nil =>
    intro q st recs q' st' h r hr
    simp only [buyLoop] at h
    cases h
    cases hr
  | cons e rest ih =>
    intro q st recs q' st' h r hr
    obtain ⟨p, lvl⟩ := e
    simp only [buyLoop] at h
    split at h
    case isTrue hcond =>
      cases h₁ : levelLoopB aOid sym qty0 lvl q st with
      | none => rw [h₁] at h; cases h
      | some t₁ =>
        obtain ⟨r₁, q₁, st₁⟩ := t₁
        cases h₂ : buyLoop aOid sym L qty0 rest q₁ st₁ with
        | none => simp only [h₁, h₂] at h; cases h
        | some t₂ =>
          obtain ⟨r₂, q₂, st₂⟩ := t₂
          simp only [h₁, h₂, Option.some.injEq, Prod.mk.injEq] at h
          obtain ⟨hrecs, -, -⟩ := h
          rw [← hrecs] at hr
          rcases List.mem_append.mp hr with hr₁ | hr₂
          · obtain ⟨k, o, m, a2, hmem, hre⟩ := levelLoopB_shape lvl h₁ r hr₁
            exact ⟨p, lvl, k, o, m, a2, List.mem_cons_self _ _, hmem, hcond.1, hre⟩
          · obtain ⟨p', lvl', k, o, m, a2, hpl, hmem, hple, hre⟩ := ih h₂ r hr₂
            exact ⟨p', lvl', k, o, m, a2, List.mem_cons_of_mem _ hpl, hmem, hple, hre⟩
    case isFalse =>
      cases h
      cases hr

theorem sellLoop_shape {aOid : Nat} {sym : String} {L qty0 : Nat}
    (levels : List (Nat × Level)) :
    ∀ {q : Nat} {st : SC} {recs q' st'},
      sellLoop aOid sym L qty0 levels q st = some (recs, q', st') →
      ∀ r ∈ recs, ∃ p lvl k o m a2,
        (p, lvl) ∈ levels ∧ (k, o) ∈ lvl ∧ L ≤ p ∧ r = OutRec.F a2 sym m L := by
  induction levels with
  | nil =>
    intro q st recs q' st' h r hr
    simp only [sellLoop] at h
    cases h
    cases hr
  | cons e rest ih =>
    intro q st recs q' st' h r hr
    obtain ⟨p, lvl⟩ := e
    simp only [sellLoop] at h
    split at h
    case isTrue hcond =>
      cases h₁ : levelLoopS aOid sym qty0 L lvl q st with
      | none => rw [h₁] at h; cases h
      | some t₁ =>
        obtain ⟨r₁, q₁, st₁⟩ := t₁
        cases h₂ : sellLoop aOid sym L qty0 rest q₁ st₁ with
        | none => simp only [h₁, h₂] at h; cases h
        | some t₂ =>
          obtain ⟨r₂, q₂, st₂⟩ := t₂
          simp only [h₁, h₂, Option.some.injEq, Prod.mk.injEq] at h
          obtain ⟨hrecs, -, -⟩ := h
          rw [← hrecs] at hr
          rcases List.mem_append.mp hr with hr₁ | hr₂
          · obtain ⟨k, o, m, a2, hmem, hre⟩ := levelLoopS_shape lvl h₁ r hr₁
            exact ⟨p, lvl, k, o, m, a2, List.mem_cons_self _ _, hmem, hcond.1, hre⟩
          · obtain ⟨p', lvl', k, o, m, a2, hpl, hmem, hple, hre⟩ := ih h₂ r hr₂
            exact ⟨p', lvl', k, o, m, a2, List.mem_cons_of_mem _ hpl, hmem, hple, hre⟩
    case isFalse =>
      cases h
      cases hr

theorem bmFind_append_self {sym : String} {bm : BookMain} {x : BookPair}
    (h : bmFind sym bm = none) : bmFind sym (bm ++ [(sym, x)]) = some x := by
  induction bm with
  | nil => simp [bmFind]
  | cons e rest ih =>
    obtain ⟨s, pr⟩ := e
    simp only [bmFind, List.cons_append] at h ⊢
    split at h
    · cases h
    · rw [if_neg (by assumption)]
      exact ih h

theorem bmFindD_ensureSym (sym : String) (bm : BookMain) :
    bmFindD sym (ensureSym sym bm) = bmFindD sym bm := by
  unfold ensureSym
  cases hf : bmFind sym bm with
  | some pr => rfl
  | none =>
    unfold bmFindD
    rw [hf, bmFind_append_self hf]
    rfl

theorem buy_cross_fills {toks : List String} {st : SC} {recs : List OutRec} {st' : SC}
    {sym : String} (hsym : toks.get? SYMBOL = some sym)
    (h : buy_cross toks st = some (recs, st')) :
    ∀ r ∈ recs, ∃ L, (toks.get? PX).bind stod5? = some L ∧
      ∃ p lvl k o m a2, (p, lvl) ∈ (bmFindD sym st.book_main).2 ∧ (k, o) ∈ lvl ∧
        p ≤ L ∧ r = OutRec.F a2 sym m o.px := by
  simp only [buy_cross, hsym] at h
  cases hpx : (toks.get? PX).bind stod5? with
  | none => rw [hpx] at h; cases h
  | some L =>
    cases hq : (toks.get? QTY).bind stoi? with
    | none => rw [hpx, hq] at h; cases h
    | some q0 =>
      cases ho : (toks.get? OID).bind stoi? with
      | none => rw [hpx, hq, ho] at h; cases h
      | some aOid =>
        cases hloop : buyLoop aOid sym L q0 (bmFindD sym (ensureSym sym st.book_main)).2 q0
            ⟨ensureSym sym st.book_main, st.OIDs, st.ub_end_deref⟩ with
        | none => simp only [hpx, hq, ho, hloop] at h; cases h
        | some t =>
          obtain ⟨recs₀, qe, st₂⟩ := t
          simp only [hpx, hq, ho, hloop] at h
          have hrecs : recs₀ = recs := by
            split at h
            · cases hsd : toks.get? SIDE with
              | none => rw [hsd] at h; cases h
              | some sd =>
                rw [hsd] at h
                simp only [Option.some.injEq, Prod.mk.injEq] at h
                exact h.1
            · simp only [Option.some.injEq, Prod.mk.injEq] at h
              exact h.1
          subst hrecs
          intro r hr
          obtain ⟨p, lvl, k, o, m, a2, hpl, hko, hple, hre⟩ := buyLoop_shape _ hloop r hr
          rw [bmFindD_ensureSym] at hpl
          exact ⟨L, rfl, p, lvl, k, o, m, a2, hpl, hko, hple, hre⟩

theorem sell_cross_fills {toks : List String} {st : SC} {recs : List OutRec} {st' : SC}
    {sym : String} (hsym : toks.get? SYMBOL = some sym)
    (h : sell_cross toks st = some (recs, st')) :
    ∀ r ∈ recs, ∃ L, (toks.get? PX).bind stod5? = some L ∧
      ∃ p lvl k o m a2, (p, lvl) ∈ (bmFindD sym st.book_main).1 ∧ (k, o) ∈ lvl ∧
        L ≤ p ∧ r = OutRec.F a2 sym m L := by
  simp only [sell_cross, hsym] at h
  cases hpx : (toks.get? PX).bind stod5? with
  | none => rw [hpx] at h; cases h
  | some L =>
    cases hq : (toks.get? QTY).bind stoi? with
    | none => rw [hpx, hq] at h; cases h
    | some q0 =>
      cases ho : (toks.get? OID).bind stoi? with
      | none => rw [hpx, hq, ho] at h; cases h
      | some aOid =>
        cases hloop : sellLoop aOid sym L q0
            (List.reverse (bmFindD sym (ensureSym sym st.book_main)).1) q0
            ⟨ensureSym sym st.book_main, st.OIDs, st.ub_end_deref⟩ with
        | none => simp only [hpx, hq, ho, hloop] at h; cases h
        | some t =>
          obtain ⟨recs₀, qe, st₂⟩ := t
          simp only [hpx, hq, ho, hloop] at h
          have hrecs : recs₀ = recs := by
            split at h
            · cases hsd : toks.get? SIDE with
              | none => rw [hsd] at h; cases h
              | some sd =>
                rw [hsd] at h
                simp only [Option.some.injEq, Prod.mk.injEq] at h
                exact h.1
            · simp only [Option.some.injEq, Prod.mk.injEq] at h
              exact h.1
          subst hrecs
          intro r hr
          obtain ⟨p, lvl, k, o, m, a2, hpl, hko, hple, hre⟩ := sellLoop_shape _ hloop r hr
          rw [List.mem_reverse, bmFindD_ensureSym] at hpl
          exact ⟨L, rfl, p, lvl, k, o, m, a2, hpl, hko, hple, hre⟩

/-- C1 amended.  Fill-price provenance of the two matching routines:
every fill record emitted by `buy_cross` carries the stored price of
one of the resting sell orders present when the submit began (the
matched level's entry, `std::stod(split_order[PX])`) — never a value
read from the aggressor's price token; every fill record emitted by
`sell_cross` carries the *aggressor's* parsed limit price
(`std::stod(split_line[PX])`), not the resting bid's price. -/
theorem c1_amended_fill_price_rule :
    (∀ toks st recs st' sym, toks.get? SYMBOL = some sym →
       buy_cross toks st = some (recs, st') →
       ∀ r ∈ recs, ∃ p lvl k o m a2, (p, lvl) ∈ (bmFindD sym st.book_main).2 ∧
         (k, o) ∈ lvl ∧ r = OutRec.F a2 sym m o.px) ∧
    (∀ toks st recs st' sym L, toks.get? SYMBOL = some sym →
       (toks.get? PX).bind stod5? = some L →
       sell_cross toks st = some (recs, st') →
       ∀ r ∈ recs, ∃ m a2, r = OutRec.F a2 sym m L) := by
  constructor
  · intro toks st recs st' sym hsym h r hr
    obtain ⟨L, -, p, lvl, k, o, m, a2, hpl, hko, -, hre⟩ := buy_cross_fills hsym h r hr
    exact ⟨p, lvl, k, o, m, a2, hpl, hko, hre⟩
  · intro toks st recs st' sym L hsym hpx h r hr
    obtain ⟨L', hpx', p, lvl, k, o, m, a2, -, -, -, hre⟩ := sell_cross_fills hsym h r hr
    rw [hpx] at hpx'
    cases hpx'
    exact ⟨m, a2, hre⟩

/-- C8.  Every fill respects both limits: a fill emitted by
`buy_cross` (buyer = aggressor with limit `L`, seller = the matched
resting ask) has price `o.px ≤ L` and equals the seller's own limit
`o.px`; a fill emitted by `sell_cross` (seller = aggressor with limit
`L`, buyer = the matched resting bid at `o.px`) has price `L ≤ o.px`
and equals the seller's own limit `L`.  `KeyedPx` states that stored
orders carry their level's price, which holds of every book the engine
builds. -/
theorem c8_limit_respected :
    (∀ toks st recs st' sym L, toks.get? SYMBOL = some sym →
       (toks.get? PX).bind stod5? = some L →
       KeyedPx (bmFindD sym st.book_main).2 →
       buy_cross toks st = some (recs, st') →
       ∀ r ∈ recs, ∃ p lvl k o, (p, lvl) ∈ (bmFindD sym st.book_main).2 ∧ (k, o) ∈ lvl ∧
         ∃ m a2, r = OutRec.F a2 sym m o.px ∧ o.px ≤ L) ∧
    (∀ toks st recs st' sym L, toks.get? SYMBOL = some sym →
       (toks.get? PX).bind stod5? = some L →
       KeyedPx (bmFindD sym st.book_main).1 →
       sell_cross toks st = some (recs, st') →
       ∀ r ∈ recs, ∃ p lvl k o, (p, lvl) ∈ (bmFindD sym st.book_main).1 ∧ (k, o) ∈ lvl ∧
         ∃ m a2, r = OutRec.F a2 sym m L ∧ L ≤ o.px) := by
  constructor
  · intro toks st recs st' sym L hsym hpx hwf h r hr
    obtain ⟨L', hpx', p, lvl, k, o, m, a2, hpl, hko, hple, hre⟩ := buy_cross_fills hsym h r hr
    rw [hpx] at hpx'
    cases hpx'
    have hkey := hwf (p, lvl) hpl (k, o) hko
    exact ⟨p, lvl, k, o, hpl, hko, m, a2, hre, by rw [hkey]; exact hple⟩
  · intro toks st recs st' sym L hsym hpx hwf h r hr
    obtain ⟨L', hpx', p, lvl, k, o, m, a2, hpl, hko, hple, hre⟩ := sell_cross_fills hsym h r hr
    rw [hpx] at hpx'
    cases hpx'
    have hkey := hwf (p, lvl) hpl (k, o) hko
    exact ⟨p, lvl, k, o, hpl, hko, m, a2, hre, by rw [hkey]; exact hple⟩

/-! ### Witness states: one resting order on one side -/

/-- A book with a single resting sell order 1 at 100.00000. -/
def wAskBook : SC :=
  ⟨[("IBM", ([], [(10000000, [(1, ⟨1, "IBM", 'S', 5, 10000000⟩)])]))],
   [(1, ["O","1","IBM","S","5","100.00000"])], false⟩

/-- A book with a single resting buy order 1 at 101.00000. -/
def wBidBook : SC :=
  ⟨[("IBM", ([(10100000, [(1, ⟨1, "IBM", 'B', 5, 10100000⟩)])], []))],
   [(1, ["O","1","IBM","B","5","101.00000"])], false⟩

/-- Closed instantiation of `c1_amended_fill_price_rule` at a buy
aggressor limited at 101 hitting the resting ask at 100 (fill price is
the resting order's 100) and a sell aggressor limited at 100 hitting
the resting bid at 101 (fill price is the aggressor's 100). -/
theorem c1_amended_fill_price_rule_witness :
    (∃ p lvl k o m a2, (p, lvl) ∈ (bmFindD "IBM" wAskBook.book_main).2 ∧ (k, o) ∈ lvl ∧
       OutRec.F 2 "IBM" 5 10000000 = OutRec.F a2 "IBM" m o.px) ∧
    (∃ m a2, OutRec.F 2 "IBM" 5 10000000 = OutRec.F a2 "IBM" m 10000000) :=
  ⟨c1_amended_fill_price_rule.1 ["O","2","IBM","B","5","101.00000"] wAskBook _ _ "IBM"
     rfl rfl (OutRec.F 2 "IBM" 5 10000000) (by decide),
   c1_amended_fill_price_rule.2 ["O","2","IBM","S","5","100.00000"] wBidBook _ _ "IBM" 10000000
     rfl rfl rfl (OutRec.F 2 "IBM" 5 10000000) (by decide)⟩

/-- Closed instantiation of `c8_limit_respected` at the same two
crossings. -/
theorem c8_limit_respected_witness :
    (∃ p lvl k o, (p, lvl) ∈ (bmFindD "IBM" wAskBook.book_main).2 ∧ (k, o) ∈ lvl ∧
       ∃ m a2, OutRec.F 2 "IBM" 5 10000000 = OutRec.F a2 "IBM" m o.px ∧ o.px ≤ 10100000) ∧
    (∃ p lvl k o, (p, lvl) ∈ (bmFindD "IBM" wBidBook.book_main).1 ∧ (k, o) ∈ lvl ∧
       ∃ m a2, OutRec.F 2 "IBM" 5 10000000 = OutRec.F a2 "IBM" m 10000000 ∧ 10000000 ≤ o.px) :=
  ⟨c8_limit_respected.1 ["O","2","IBM","B","5","101.00000"] wAskBook _ _ "IBM" 10100000
     rfl rfl (by decide) rfl (OutRec.F 2 "IBM" 5 10000000) (by decide),
   c8_limit_respected.2 ["O","2","IBM","S","5","100.00000"] wBidBook _ _ "IBM" 10000000
     rfl rfl (by decide) rfl (OutRec.F 2 "IBM" 5 10000000) (by decide)⟩

/-! ### C7: failing actions -/

theorem check_malformed_input_true {toks : List String} {out : List OutRec}
    (h : check_malformed_input toks = some (true, out)) :
    ∃ msg, out = [OutRec.E none msg] := by
  unfold check_malformed_input at h
  repeat' split at h
  all_goals try cases h
  all_goals exact ⟨_, rfl⟩

theorem buy_cross_not_isE {toks : List String} {st : SC} {recs : List OutRec} {st' : SC}
    (h : buy_cross toks st = some (recs, st')) : ∀ r ∈ recs, r.isE = false := by
  intro r hr
  cases hsym : toks.get? SYMBOL with
  | none => simp only [buy_cross, hsym] at h; cases h
  | some sym =>
    obtain ⟨L, -, p, lvl, k, o, m, a2, -, -, -, hre⟩ := buy_cross_fills hsym h r hr
    rw [hre]; rfl

theorem sell_cross_not_isE {toks : List String} {st : SC} {recs : List OutRec} {st' : SC}
    (h : sell_cross toks st = some (recs, st')) : ∀ r ∈ recs, r.isE = false := by
  intro r hr
  cases hsym : toks.get? SYMBOL with
  | none => simp only [sell_cross, hsym] at h; cases h
  | some sym =>
    obtain ⟨L, -, p, lvl, k, o, m, a2, -, -, -, hre⟩ := sell_cross_fills hsym h r hr
    rw [hre]; rfl

/-- C7 amended.  Every action whose output contains an error record
produces exactly that one record, and leaves the state unchanged —
except an `O` rejected for an invalid side character, which has
already recorded its oid and raw line in the oid index (the source
stores `OIDs[order_id] = line` before `cross_order` checks the side)
and changes nothing else.  Together with
`c5_duplicate_oid_rejected` this makes a later `O` with the same oid a
duplicate. -/
theorem c7_amended_failing_action_effect
    {toks : List String} {st : SC} {out : List OutRec} {st' : SC} {r : OutRec}
    (h : action toks st = some (out, st')) (hr : r ∈ out) (he : r.isE = true) :
    out = [r] ∧
      (st' = st ∨ ∃ oid, (toks.get? OID).bind stoi? = some oid ∧
        oidsFind oid st.OIDs = none ∧
        st' = ⟨st.book_main, st.OIDs ++ [(oid, toks)], st.ub_end_deref⟩) := by
  unfold action at h
  cases hchk : check_malformed_input toks with
  | none => rw [hchk] at h; cases h
  | some pr =>
    obtain ⟨flag, out₀⟩ := pr
    cases flag with
    | true =>
      simp only [hchk] at h
      cases h
      obtain ⟨msg, rfl⟩ := check_malformed_input_true hchk
      simp only [List.mem_singleton] at hr
      subst hr
      exact ⟨rfl, Or.inl rfl⟩
    | false =>
      cases hact : toks.get? ACTION with
      | none => simp only [hchk, hact] at h; cases h
      | some a =>
        simp only [hchk, hact] at h
        split at h
        · -- action character 'O'
          cases hoid : (toks.get? OID).bind stoi? with
          | none => rw [hoid] at h; cases h
          | some oid =>
            simp only [hoid] at h
            cases hfound : oidsFind oid st.OIDs with
            | some v =>
              simp only [hfound] at h
              cases h
              simp only [List.mem_singleton] at hr
              subst hr
              exact ⟨rfl, Or.inl rfl⟩
            | none =>
              simp only [hfound] at h
              unfold cross_order at h
              cases hsd : toks.get? SIDE with
              | none => rw [hsd] at h; cases h
              | some sd =>
                simp only [hsd] at h
                split at h
                · rw [(buy_cross_not_isE h r hr : r.isE = false)] at he; cases he
                · rw [(sell_cross_not_isE h r hr : r.isE = false)] at he; cases he
                · cases h
                  simp only [List.mem_singleton] at hr
                  subst hr
                  exact ⟨rfl, Or.inr ⟨oid, rfl, hfound, rfl⟩⟩
        · -- action character 'P'
          cases h
          obtain ⟨o, -, rfl⟩ := List.mem_map.mp hr
          cases he
        · -- action character 'X'
          cases hoid : (toks.get? OID).bind stoi? with
          | none => rw [hoid] at h; cases h
          | some oid =>
            simp only [hoid] at h
            cases hdel : delete_from_book oid st with
            | none => rw [hdel] at h; cases h
            | some st₁ =>
              simp only [hdel] at h
              cases h
              simp only [List.mem_singleton] at hr
              subst hr
              cases he
        · -- incorrect action character
          cases h
          simp only [List.mem_singleton] at hr
          subst hr
          exact ⟨rfl, Or.inl rfl⟩

/-- Closed instantiation of `c7_amended_failing_action_effect` at the
bad-side order `O 7 IBM Q 10 100.00000` on the fresh engine. -/
theorem c7_amended_failing_action_effect_witness :
    [OutRec.E none "Incorrect side character"] = [OutRec.E none "Incorrect side character"] ∧
      ((⟨[], [(7, ["O","7","IBM","Q","10","100.00000"])], false⟩ : SC) = SC.init ∨
        ∃ oid, ((["O","7","IBM","Q","10","100.00000"] : List String).get? OID).bind stoi? = some oid ∧
          oidsFind oid SC.init.OIDs = none ∧
          (⟨[], [(7, ["O","7","IBM","Q","10","100.00000"])], false⟩ : SC) =
            ⟨SC.init.book_main, SC.init.OIDs ++ [(oid, ["O","7","IBM","Q","10","100.00000"])],
             SC.init.ub_end_deref⟩) :=
  @c7_amended_failing_action_effect ["O","7","IBM","Q","10","100.00000"] SC.init _ _ _
    rfl (by decide) (by decide)

/-! ### C9: print order -/

theorem flatSB_eq_nil {sb : SubBook} (h : ∀ pl ∈ sb, (pl : Nat × Level).2 = []) :
    flatSB sb = [] := by
  induction sb with
  | nil => rfl
  | cons e rest ih =>
    simp only [flatSB, List.map_cons, List.flatten_cons]
    rw [h e (List.mem_cons_self _ _)]
    simp only [append_orders_for_key, List.map_nil, List.nil_append]
    exact ih (fun pl hpl => h pl (List.mem_cons_of_mem _ hpl))

theorem mergePrint_split :
    ∀ (bb sb : SubBook),
      List.Pairwise (fun a b : Nat × Level => a.1 < b.1) bb →
      (∀ pb ∈ bb, ∀ pa ∈ sb,
        (pb : Nat × Level).2 ≠ [] → (pa : Nat × Level).2 ≠ [] → pb.1 < pa.1) →
      mergePrint bb sb = flatSB bb ++ flatSB sb
  | [], sb, _, _ => by simp [mergePrint, flatSB]
  | (p, lb) :: bb, sb, hbb, hsep => by
    have hbb' := (List.pairwise_cons.mp hbb).2
    have hphead := (List.pairwise_cons.mp hbb).1
    simp only [mergePrint]
    induction sb with
    | nil =>
      simp only [mergeAux]
      rw [mergePrint_split bb [] hbb' (by intro pb _ pa hpa; cases hpa)]
      simp [flatSB, List.append_assoc]
    | cons e sb' ihs =>
      obtain ⟨q, la⟩ := e
      simp only [mergeAux]
      split
      · rw [mergePrint_split bb ((q, la) :: sb') hbb'
          (fun pb hpb pa hpa h1 h2 => hsep pb (List.mem_cons_of_mem _ hpb) pa hpa h1 h2)]
        simp [flatSB, List.append_assoc]
      · rename_i hqp
        rw [ihs (fun pb hpb pa hpa h1 h2 => hsep pb hpb pa (List.mem_cons_of_mem _ hpa) h1 h2)]
        by_cases hla : la = []
        · subst hla
          simp [flatSB, append_orders_for_key, List.append_assoc]
        · have hlb : lb = [] := by
            by_contra hlb
            exact hqp (Nat.le_of_lt (hsep (p, lb) (List.mem_cons_self _ _)
              (q, la) (List.mem_cons_self _ _) hlb hla))
          have hflat : flatSB bb = [] := by
            apply flatSB_eq_nil
            intro pl hpl
            by_contra hne
            have h1 : pl.1 < q :=
              hsep pl (List.mem_cons_of_mem _ hpl) (q, la) (List.mem_cons_self _ _) hne hla
            have h2 : p < pl.1 := hphead pl hpl
            have : p < q := lt_trans h2 h1
            exact hqp (Nat.le_of_lt this)
          subst hlb
          have h1 : flatSB ((p, ([] : Level)) :: bb) = [] := by
            simp only [flatSB, List.map_cons, List.flatten_cons, append_orders_for_key,
              List.map_nil, List.nil_append]
            exact hflat
          rw [h1]
          simp [flatSB, append_orders_for_key]

/-- C9 amended.  Per-symbol print order: for a book pair whose bid
side has strictly ascending price keys (as `std::map` guarantees) and
whose nonempty bid levels all price below the nonempty ask levels (the
no-cross invariant), `print_book_pair` emits exactly the reversed
flattening of the ask side followed by the reversed flattening of the
bid side: all asks before all bids, each side by price *descending*,
and — because a level's orders are stored in ascending oid order and
the single wholesale `reverse()` also flips each level — in
*descending* oid order within every price level.  The cross-symbol
traversal of the `P` action iterates a `std::unordered_map`, whose
order is unspecified. -/
theorem c9_amended_print_order (bb sb : SubBook)
    (hbb : List.Pairwise (fun a b : Nat × Level => a.1 < b.1) bb)
    (hsep : ∀ pb ∈ bb, ∀ pa ∈ sb,
      (pb : Nat × Level).2 ≠ [] → (pa : Nat × Level).2 ≠ [] → pb.1 < pa.1) :
    print_book_pair bb sb = (flatSB sb).reverse ++ (flatSB bb).reverse := by
  unfold print_book_pair
  rw [mergePrint_split bb sb hbb hsep, List.reverse_append]

/-- Closed instantiation of `c9_amended_print_order` on the book of the
documented session just before its `P` action. -/
theorem c9_amended_print_order_witness :
    print_book_pair
      [(9900000, [(10001, ⟨10001, "IBM", 'B', 10, 9900000⟩),
                  (10005, ⟨10005, "IBM", 'B', 10, 9900000⟩)]),
       (10000000, [(10006, ⟨10006, "IBM", 'B', 10, 10000000⟩)])]
      [(10100000, [(10007, ⟨10007, "IBM", 'S', 10, 10100000⟩)]),
       (10200000, [(10008, ⟨10008, "IBM", 'S', 10, 10200000⟩),
                   (10009, ⟨10009, "IBM", 'S', 10, 10200000⟩)])] =
    [⟨10009, "IBM", 'S', 10, 10200000⟩, ⟨10008, "IBM", 'S', 10, 10200000⟩,
     ⟨10007, "IBM", 'S', 10, 10100000⟩, ⟨10006, "IBM", 'B', 10, 10000000⟩,
     ⟨10005, "IBM", 'B', 10, 9900000⟩, ⟨10001, "IBM", 'B', 10, 9900000⟩] :=
  (c9_amended_print_order _ _ (by decide) (by decide)).trans (by decide)

/-! ### Association-list lemmas for the book maps -/

theorem sbFind_mem {p : Nat} {sb : SubBook} {l : Level} (h : sbFind p sb = some l) :
    (p, l) ∈ sb := by
  induction sb with
  | nil => cases h
  | cons e rest ih =>
    obtain ⟨p', l'⟩ := e
    simp only [sbFind] at h
    split at h
    next hpp => cases h; subst hpp; exact List.mem_cons_self _ _
    next => exact List.mem_cons_of_mem _ (ih h)

theorem mem_sbFind {p : Nat} {sb : SubBook} {l : Level}
    (hs : List.Pairwise (fun a b : Nat × Level => a.1 < b.1) sb)
    (h : (p, l) ∈ sb) : sbFind p sb = some l := by
  induction sb with
  | nil => cases h
  | cons e rest ih =>
    obtain ⟨p', l'⟩ := e
    obtain ⟨hhead, htail⟩ := List.pairwise_cons.mp hs
    rcases List.mem_cons.mp h with heq | hmem
    · cases heq
      simp [sbFind]
    · have hlt : p' < p := hhead (p, l) hmem
      simp only [sbFind]
      rw [if_neg (by omega)]
      exact ih htail hmem

theorem sbFind_sbSet_same (p : Nat) (l : Level) (sb : SubBook) :
    sbFind p (sbSet p l sb) = some l := by
  induction sb with
  | nil => simp [sbSet, sbFind]
  | cons e rest ih =>
    obtain ⟨p', l'⟩ := e
    simp only [sbSet]
    split
    · simp [sbFind]
    · split
      next heq => simp [sbFind]
      next hne =>
        simp only [sbFind]
        rw [if_neg hne]
        exact ih

theorem sbFind_sbSet_other {x p : Nat} (hx : x ≠ p) (l : Level) (sb : SubBook) :
    sbFind x (sbSet p l sb) = sbFind x sb := by
  induction sb with
  | nil => simp [sbSet, sbFind, hx]
  | cons e rest ih =>
    obtain ⟨p', l'⟩ := e
    simp only [sbSet]
    split
    · simp only [sbFind]
      rw [if_neg hx]
    · split
      next heq =>
        subst heq
        simp only [sbFind]
        rw [if_neg hx, if_neg hx]
      next hne =>
        simp only [sbFind]
        split
        · rfl
        · exact ih

theorem mem_sbSet {pl : Nat × Level} {p : Nat} {l : Level} {sb : SubBook}
    (h : pl ∈ sbSet p l sb) : pl = (p, l) ∨ pl ∈ sb := by
  induction sb with
  | nil => simpa [sbSet] using h
  | cons e rest ih =>
    obtain ⟨p', l'⟩ := e
    simp only [sbSet] at h
    split at h
    · rcases List.mem_cons.mp h with h2 | h2
      · exact Or.inl h2
      · exact Or.inr h2
    · split at h
      · rcases List.mem_cons.mp h with h2 | h2
        · exact Or.inl h2
        · exact Or.inr (List.mem_cons_of_mem _ h2)
      · rcases List.mem_cons.mp h with h2 | h2
        · exact Or.inr (h2 ▸ List.mem_cons_self _ _)
        · rcases ih h2 with h3 | h3
          · exact Or.inl h3
          · exact Or.inr (List.mem_cons_of_mem _ h3)

theorem sbSet_pairwise {p : Nat} {l : Level} {sb : SubBook}
    (h : List.Pairwise (fun a b : Nat × Level => a.1 < b.1) sb) :
    List.Pairwise (fun a b : Nat × Level => a.1 < b.1) (sbSet p l sb) := by
  induction sb with
  | nil => simp [sbSet]
  | cons e rest ih =>
    obtain ⟨p', l'⟩ := e
    obtain ⟨hhead, htail⟩ := List.pairwise_cons.mp h
    simp only [sbSet]
    split
    next hlt =>
      refine List.pairwise_cons.mpr ⟨?_, h⟩
      intro a ha
      rcases List.mem_cons.mp ha with heq | hmem
      · rw [heq]; exact hlt
      · exact lt_trans hlt (hhead a hmem)
    next hnlt =>
      split
      next heq =>
        subst heq
        exact List.pairwise_cons.mpr ⟨hhead, htail⟩
      next hne =>
        refine List.pairwise_cons.mpr ⟨?_, ih htail⟩
        intro a ha
        rcases mem_sbSet ha with heq | hmem
        · rw [heq]; simp only []; omega
        · exact hhead a hmem

theorem levelErase_sublist (k : Nat) (lvl : Level) : List.Sublist (levelErase k lvl) lvl := by
  induction lvl with
  | nil => simp [levelErase]
  | cons e rest ih =>
    obtain ⟨k', o'⟩ := e
    simp only [levelErase]
    split
    · exact List.sublist_cons_self _ _
    · exact List.Sublist.cons₂ _ ih

theorem mem_levelInsert {e : Nat × Order} {k : Nat} {o : Order} {lvl : Level}
    (h : e ∈ levelInsert k o lvl) : e = (k, o) ∨ e ∈ lvl := by
  induction lvl with
  | nil => simpa [levelInsert] using h
  | cons e' rest ih =>
    obtain ⟨k', o'⟩ := e'
    simp only [levelInsert] at h
    split at h
    · rcases List.mem_cons.mp h with h2 | h2
      · exact Or.inl h2
      · exact Or.inr h2
    · split at h
      · rcases List.mem_cons.mp h with h2 | h2
        · exact Or.inl h2
        · exact Or.inr (List.mem_cons_of_mem _ h2)
      · rcases List.mem_cons.mp h with h2 | h2
        · exact Or.inr (h2 ▸ List.mem_cons_self _ _)
        · rcases ih h2 with h3 | h3
          · exact Or.inl h3
          · exact Or.inr (List.mem_cons_of_mem _ h3)

theorem levelInsert_pairwise {k : Nat} {o : Order} {lvl : Level}
    (h : List.Pairwise (fun a b : Nat × Order => a.1 < b.1) lvl) :
    List.Pairwise (fun a b : Nat × Order => a.1 < b.1) (levelInsert k o lvl) := by
  induction lvl with
  | nil => simp [levelInsert]
  | cons e rest ih =>
    obtain ⟨k', o'⟩ := e
    obtain ⟨hhead, htail⟩ := List.pairwise_cons.mp h
    simp only [levelInsert]
    split
    next hlt =>
      refine List.pairwise_cons.mpr ⟨?_, h⟩
      intro a ha
      rcases List.mem_cons.mp ha with heq | hmem
      · rw [heq]; exact hlt
      · exact lt_trans hlt (hhead a hmem)
    next hnlt =>
      split
      next heq =>
        subst heq
        exact List.pairwise_cons.mpr ⟨hhead, htail⟩
      next hne =>
        refine List.pairwise_cons.mpr ⟨?_, ih htail⟩
        intro a ha
        rcases mem_levelInsert ha with heq | hmem
        · rw [heq]; simp only []; omega
        · exact hhead a hmem

theorem bmFind_bmSet_same (sym : String) (pr : BookPair) (bm : BookMain) :
    bmFind sym (bmSet sym pr bm) = some pr := by
  induction bm with
  | nil => simp [bmSet, bmFind]
  | cons e rest ih =>
    obtain ⟨s, pr'⟩ := e
    simp only [bmSet]
    split
    next heq => simp [bmFind]
    next hne =>
      simp only [bmFind]
      rw [if_neg hne]
      exact ih

theorem bmFind_bmSet_other {x sym : String} (hx : x ≠ sym) (pr : BookPair) (bm : BookMain) :
    bmFind x (bmSet sym pr bm) = bmFind x bm := by
  induction bm with
  | nil => simp [bmSet, bmFind, hx]
  | cons e rest ih =>
    obtain ⟨s, pr'⟩ := e
    simp only [bmSet]
    split
    next heq =>
      subst heq
      simp only [bmFind]
      rw [if_neg hx, if_neg hx]
    next hne =>
      simp only [bmFind]
      split
      · rfl
      · exact ih

theorem mem_bmSet {e : String × BookPair} {sym : String} {pr : BookPair} {bm : BookMain}
    (h : e ∈ bmSet sym pr bm) : e = (sym, pr) ∨ e ∈ bm := by
  induction bm with
  | nil => simpa [bmSet] using h
  | cons e' rest ih =>
    obtain ⟨s, pr'⟩ := e'
    simp only [bmSet] at h
    split at h
    · rcases List.mem_cons.mp h with h2 | h2
      · exact Or.inl h2
      · exact Or.inr (List.mem_cons_of_mem _ h2)
    · rcases List.mem_cons.mp h with h2 | h2
      · exact Or.inr (h2 ▸ List.mem_cons_self _ _)
      · rcases ih h2 with h3 | h3
        · exact Or.inl h3
        · exact Or.inr (List.mem_cons_of_mem _ h3)

theorem bmSet_keys_of_find {sym : String} {pr₀ : BookPair} {bm : BookMain}
    (h : bmFind sym bm = some pr₀) (pr : BookPair) :
    (bmSet sym pr bm).map (fun e => e.1) = bm.map (fun e => e.1) := by
  induction bm with
  | nil => cases h
  | cons e rest ih =>
    obtain ⟨s, pr'⟩ := e
    simp only [bmFind] at h
    simp only [bmSet]
    split at h
    next heq =>
      rw [if_pos heq]
      simp [heq]
    next hne =>
      rw [if_neg hne]
      simp only [List.map_cons]
      rw [ih h]

theorem bmFind_none_not_mem {sym : String} {bm : BookMain}
    (h : bmFind sym bm = none) : ∀ e ∈ bm, (e : String × BookPair).1 ≠ sym := by
  induction bm with
  | nil => intro e he; cases he
  | cons e' rest ih =>
    obtain ⟨s, pr'⟩ := e'
    simp only [bmFind] at h
    split at h
    · cases h
    next hne =>
      intro e he
      rcases List.mem_cons.mp he with heq | hmem
      · rw [heq]
        intro hc
        exact hne hc.symm
      · exact ih h e hmem

theorem ensureSym_of_find {sym : String} {bm : BookMain} {pr : BookPair}
    (h : bmFind sym bm = some pr) : ensureSym sym bm = bm := by
  unfold ensureSym
  rw [h]

theorem ensureSym_of_none {sym : String} {bm : BookMain}
    (h : bmFind sym bm = none) : ensureSym sym bm = bm ++ [(sym, ([], []))] := by
  unfold ensureSym
  rw [h]

/-! ### Effect of the book mutations under linkage -/

theorem delete_from_book_run_S {oid : Nat} {st : SC} {otoks : List String}
    {sym sdTok : String} {p : Nat}
    (h1 : oidsFind oid st.OIDs = some otoks)
    (h2 : (otoks.get? PX).bind stod5? = some p)
    (h3 : otoks.get? SIDE = some sdTok)
    (h4 : otoks.get? SYMBOL = some sym)
    (h5 : char0 sdTok = 'S') :
    delete_from_book oid st =
      some ⟨bmLevelModify sym false p (levelErase oid) st.book_main, st.OIDs, st.ub_end_deref⟩ := by
  unfold delete_from_book
  simp only [h1, h2, h3, h4, h5]

theorem delete_from_book_run_B {oid : Nat} {st : SC} {otoks : List String}
    {sym sdTok : String} {p : Nat}
    (h1 : oidsFind oid st.OIDs = some otoks)
    (h2 : (otoks.get? PX).bind stod5? = some p)
    (h3 : otoks.get? SIDE = some sdTok)
    (h4 : otoks.get? SYMBOL = some sym)
    (h5 : char0 sdTok = 'B') :
    delete_from_book oid st =
      some ⟨bmLevelModify sym true p (levelErase oid) st.book_main, st.OIDs, st.ub_end_deref⟩ := by
  unfold delete_from_book
  simp only [h1, h2, h3, h4, h5]

theorem update_in_book_run_S {oid : Nat} {newO : Order} {st : SC} {otoks : List String}
    {sym sdTok : String} {p : Nat}
    (h1 : oidsFind oid st.OIDs = some otoks)
    (h2 : (otoks.get? PX).bind stod5? = some p)
    (h3 : otoks.get? SIDE = some sdTok)
    (h4 : otoks.get? SYMBOL = some sym)
    (h5 : char0 sdTok = 'S') :
    update_in_book oid newO st =
      some ⟨bmLevelModify sym false p (levelInsert oid newO) st.book_main, st.OIDs, st.ub_end_deref⟩ := by
  unfold update_in_book
  simp only [h1, h2, h3, h4, h5]

theorem update_in_book_run_B {oid : Nat} {newO : Order} {st : SC} {otoks : List String}
    {sym sdTok : String} {p : Nat}
    (h1 : oidsFind oid st.OIDs = some otoks)
    (h2 : (otoks.get? PX).bind stod5? = some p)
    (h3 : otoks.get? SIDE = some sdTok)
    (h4 : otoks.get? SYMBOL = some sym)
    (h5 : char0 sdTok = 'B') :
    update_in_book oid newO st =
      some ⟨bmLevelModify sym true p (levelInsert oid newO) st.book_main, st.OIDs, st.ub_end_deref⟩ := by
  unfold update_in_book
  simp only [h1, h2, h3, h4, h5]

theorem bmLevelModify_ask {sym : String} {p : Nat} {f : Level → Level}
    {bm : BookMain} {pr : BookPair} {lvl : Level}
    (hsym : bmFind sym bm = some pr) (hlvl : sbFind p pr.2 = some lvl) :
    bmLevelModify sym false p f bm = bmSet sym (pr.1, sbSet p (f lvl) pr.2) bm := by
  unfold bmLevelModify bmFindD
  simp only [ensureSym_of_find hsym, hsym, Option.getD_some, hlvl]
  rfl

theorem bmLevelModify_bid {sym : String} {p : Nat} {f : Level → Level}
    {bm : BookMain} {pr : BookPair} {lvl : Level}
    (hsym : bmFind sym bm = some pr) (hlvl : sbFind p pr.1 = some lvl) :
    bmLevelModify sym true p f bm = bmSet sym (sbSet p (f lvl) pr.1, pr.2) bm := by
  unfold bmLevelModify bmFindD
  simp only [ensureSym_of_find hsym, hsym, Option.getD_some, hlvl]
  rfl

theorem sbSet_SideWF {oids : List (Nat × List String)} {sym : String} {sd : Char}
    {sb : SubBook} {p : Nat} {rem : Level}
    (hwf : SideWF oids sym sd sb) (hrem : LevelWF oids sym sd p rem) :
    SideWF oids sym sd (sbSet p rem sb) := by
  obtain ⟨hs, hl⟩ := hwf
  refine ⟨sbSet_pairwise hs, ?_⟩
  intro pl hpl
  rcases mem_sbSet hpl with heq | hmem
  · rw [heq]; exact hrem
  · exact hl pl hmem

theorem pairwise_keys_head_replace {k : Nat} {o o' : Order} {rest : Level}
    (h : List.Pairwise (fun a b : Nat × Order => a.1 < b.1) ((k, o) :: rest)) :
    List.Pairwise (fun a b : Nat × Order => a.1 < b.1) ((k, o') :: rest) := by
  obtain ⟨hh, ht⟩ := List.pairwise_cons.mp h
  exact List.pairwise_cons.mpr ⟨hh, ht⟩

/-- Effect of the inner `for` loop of `buy_cross` on one copied level:
the state keeps its oid index and flag, other symbols and other price
levels of the symbol are untouched, the well-formedness of the sell
side is preserved, and the level at `p` is left empty whenever the
aggressor still has quantity when the loop ends. -/
theorem levelLoopB_effect {aOid : Nat} {sym : String} {qty0 : Nat} (p : Nat)
    (entries : List (Nat × Order)) :
    ∀ {q : Nat} {st : SC} {recs : List OutRec} {q' : Nat} {st' : SC} {pr : BookPair},
      levelLoopB aOid sym qty0 entries q st = some (recs, q', st') →
      bmFind sym st.book_main = some pr →
      SideWF st.OIDs sym 'S' pr.2 →
      sbFind p pr.2 = some entries →
      st'.OIDs = st.OIDs ∧ st'.ub_end_deref = st.ub_end_deref ∧
      st'.book_main.map (fun e => e.1) = st.book_main.map (fun e => e.1) ∧
      (∀ s, s ≠ sym → bmFind s st'.book_main = bmFind s st.book_main) ∧
      ∃ pr' rem, bmFind sym st'.book_main = some pr' ∧ pr'.1 = pr.1 ∧
        SideWF st.OIDs sym 'S' pr'.2 ∧
        (∀ x, x ≠ p → sbFind x pr'.2 = sbFind x pr.2) ∧
        sbFind p pr'.2 = some rem ∧
        (0 < q' → rem = []) ∧ (rem ≠ [] → entries ≠ []) ∧ q' ≤ q := by
  induction entries with
  | nil =>
    intro q st recs q' st' pr h hsym hwf hlvl
    simp only [levelLoopB] at h
    cases h
    exact ⟨rfl, rfl, rfl, fun s _ => rfl,
      pr, [], hsym, rfl, hwf, fun x _ => rfl, hlvl, fun _ => rfl,
      fun hc => absurd rfl hc, Nat.le_refl q⟩
  | cons e rest ih =>
    intro q st recs q' st' pr h hsym hwf hlvl
    obtain ⟨k, o⟩ := e
    have hlw : LevelWF st.OIDs sym 'S' p ((k, o) :: rest) := hwf.2 _ (sbFind_mem hlvl)
    have hek : EntryLinked st.OIDs sym 'S' p (k, o) := hlw.2 _ (List.mem_cons_self _ _)
    obtain ⟨hk, hpx, hsd, hsymf, otoks, hfind, hsymTok, ⟨sdTok, hsdTok, hsdChar⟩, hpxTok⟩ := hek
    simp only at hk hpx hsd hsymf hfind
    subst hk
    have hrest_lw : LevelWF st.OIDs sym 'S' p rest :=
      ⟨(List.pairwise_cons.mp hlw.1).2, fun e he => hlw.2 e (List.mem_cons_of_mem _ he)⟩
    simp only [levelLoopB] at h
    split at h
    next hqlt =>
      rw [update_in_book_run_S hfind hpxTok hsdTok hsymTok hsdChar] at h
      cases h
      have hins : levelInsert o.oid (⟨o.oid, o.sym, o.side, o.qty - q, o.px⟩ : Order)
          ((o.oid, o) :: rest) = (o.oid, ⟨o.oid, o.sym, o.side, o.qty - q, o.px⟩) :: rest := by
        simp [levelInsert]
      have hmod := @bmLevelModify_ask _ _
        (levelInsert o.oid ⟨o.oid, o.sym, o.side, o.qty - q, o.px⟩) _ _ _ hsym hlvl
      rw [hins] at hmod
      have hlw' : LevelWF st.OIDs sym 'S' p
          ((o.oid, (⟨o.oid, o.sym, o.side, o.qty - q, o.px⟩ : Order)) :: rest) := by
        refine ⟨pairwise_keys_head_replace hlw.1, ?_⟩
        intro e he
        rcases List.mem_cons.mp he with heq | hmem
        · rw [heq]
          exact ⟨rfl, hpx, hsd, hsymf, otoks, hfind, hsymTok, ⟨sdTok, hsdTok, hsdChar⟩, hpxTok⟩
        · exact hlw.2 e (List.mem_cons_of_mem _ hmem)
      refine ⟨rfl, rfl, ?_, ?_,
        (pr.1, sbSet p ((o.oid, ⟨o.oid, o.sym, o.side, o.qty - q, o.px⟩) :: rest) pr.2),
        (o.oid, ⟨o.oid, o.sym, o.side, o.qty - q, o.px⟩) :: rest,
        ?_, rfl, sbSet_SideWF hwf hlw', fun x hx => sbFind_sbSet_other hx _ _,
        sbFind_sbSet_same _ _ _, ?_, fun _ => List.cons_ne_nil _ _, Nat.zero_le q⟩
      · rw [hmod]
        exact bmSet_keys_of_find hsym _
      · intro s hs
        rw [hmod]
        exact bmFind_bmSet_other hs _ _
      · rw [hmod]
        exact bmFind_bmSet_same _ _ _
      · intro h0
        exact absurd h0 (Nat.lt_irrefl 0)
    next hnlt =>
      split at h
      next heqq =>
        rw [delete_from_book_run_S hfind hpxTok hsdTok hsymTok hsdChar] at h
        cases h
        have hdel : levelErase o.oid ((o.oid, o) :: rest) = rest := by simp [levelErase]
        have hmod := @bmLevelModify_ask _ _ (levelErase o.oid) _ _ _ hsym hlvl
        rw [hdel] at hmod
        refine ⟨rfl, rfl, ?_, ?_, (pr.1, sbSet p rest pr.2), rest,
          ?_, rfl, sbSet_SideWF hwf hrest_lw, fun x hx => sbFind_sbSet_other hx _ _,
          sbFind_sbSet_same _ _ _, ?_, fun _ => List.cons_ne_nil _ _, Nat.zero_le q⟩
        · rw [hmod]
          exact bmSet_keys_of_find hsym _
        · intro s hs
          rw [hmod]
          exact bmFind_bmSet_other hs _ _
        · rw [hmod]
          exact bmFind_bmSet_same _ _ _
        · intro h0
          exact absurd h0 (Nat.lt_irrefl 0)
      next hneq =>
        have hdel : levelErase o.oid ((o.oid, o) :: rest) = rest := by simp [levelErase]
        have hmod := @bmLevelModify_ask _ _ (levelErase o.oid) _ _ _ hsym hlvl
        rw [hdel] at hmod
        simp only [delete_from_book_run_S hfind hpxTok hsdTok hsymTok hsdChar, hmod] at h
        cases hrec : levelLoopB aOid sym qty0 rest (q - o.qty)
            ⟨bmSet sym (pr.1, sbSet p rest pr.2) st.book_main, st.OIDs, st.ub_end_deref⟩ with
        | none => rw [hrec] at h; cases h
        | some t =>
          obtain ⟨recs₁, q₁, st₁⟩ := t
          simp only [hrec, Option.some.injEq, Prod.mk.injEq] at h
          obtain ⟨-, hq', hst'⟩ := h
          subst hq'
          subst hst'
          have hsym₁ : bmFind sym (bmSet sym (pr.1, sbSet p rest pr.2) st.book_main)
              = some (pr.1, sbSet p rest pr.2) := bmFind_bmSet_same _ _ _
          have hwf₁ : SideWF st.OIDs sym 'S' (sbSet p rest pr.2) := sbSet_SideWF hwf hrest_lw
          have hlvl₁ : sbFind p (sbSet p rest pr.2) = some rest := sbFind_sbSet_same _ _ _
          obtain ⟨hOIDs, hub, hkeys, hother, pr'', rem, hfind'', hfst, hwf'', hx, hp, h0, hne, hle⟩ :=
            ih hrec hsym₁ hwf₁ hlvl₁
          refine ⟨hOIDs, hub, ?_, ?_, pr'', rem, hfind'', hfst, hwf'', ?_, hp, h0,
            fun _ => List.cons_ne_nil _ _, ?_⟩
          · rw [hkeys]
            exact bmSet_keys_of_find hsym _
          · intro s hs
            rw [hother s hs]
            exact bmFind_bmSet_other hs _ _
          · intro x hx2
            rw [hx x hx2]
            exact sbFind_sbSet_other hx2 _ _
          · omega

/-- Effect of the outer matching loop of `buy_cross` over the copied
sell book: oid index preserved, other symbols untouched, sell-side
well-formedness preserved, levels outside the copy untouched, nonempty
levels were already nonempty, and — decisively — if the aggressor
still has quantity when the loop ends, every copied level priced at or
below the limit has been left empty. -/
theorem buyLoop_effect {aOid : Nat} {sym : String} {L qty0 : Nat}
    (copy : List (Nat × Level)) :
    ∀ {q : Nat} {st : SC} {recs : List OutRec} {q' : Nat} {st' : SC} {pr : BookPair},
      buyLoop aOid sym L qty0 copy q st = some (recs, q', st') →
      bmFind sym st.book_main = some pr →
      SideWF st.OIDs sym 'S' pr.2 →
      (∀ pl ∈ copy, sbFind (pl : Nat × Level).1 pr.2 = some pl.2) →
      List.Pairwise (fun a b : Nat × Level => a.1 < b.1) copy →
      st'.OIDs = st.OIDs ∧
      st'.book_main.map (fun e => e.1) = st.book_main.map (fun e => e.1) ∧
      (∀ s, s ≠ sym → bmFind s st'.book_main = bmFind s st.book_main) ∧
      ∃ pr', bmFind sym st'.book_main = some pr' ∧ pr'.1 = pr.1 ∧
        SideWF st.OIDs sym 'S' pr'.2 ∧
        (∀ x, (∀ pl ∈ copy, (pl : Nat × Level).1 ≠ x) → sbFind x pr'.2 = sbFind x pr.2) ∧
        (∀ pl' ∈ pr'.2, (pl' : Nat × Level).2 ≠ [] →
          ∃ l₀, sbFind pl'.1 pr.2 = some l₀ ∧ l₀ ≠ []) ∧
        (0 < q' → ∀ pl ∈ copy, (pl : Nat × Level).1 ≤ L → sbFind pl.1 pr'.2 = some []) ∧
        q' ≤ q := by
  induction copy with
  | nil =>
    intro q st recs q' st' pr h hsym hwf hsync hsorted
    simp only [buyLoop] at h
    cases h
    refine ⟨rfl, rfl, fun s _ => rfl, pr, hsym, rfl, hwf, fun x _ => rfl, ?_, ?_, Nat.le_refl q⟩
    · intro pl' hpl' hne
      exact ⟨pl'.2, mem_sbFind hwf.1 hpl', hne⟩
    · intro _ pl hpl
      cases hpl
  | cons e rest ih =>
    intro q st recs q' st' pr h hsym hwf hsync hsorted
    obtain ⟨p, lvl⟩ := e
    obtain ⟨hhead, htail⟩ := List.pairwise_cons.mp hsorted
    simp only [buyLoop] at h
    split at h
    next hcond =>
      cases h₁ : levelLoopB aOid sym qty0 lvl q st with
      | none => rw [h₁] at h; cases h
      | some t₁ =>
        obtain ⟨r₁, q₁, st₁⟩ := t₁
        cases h₂ : buyLoop aOid sym L qty0 rest q₁ st₁ with
        | none => simp only [h₁, h₂] at h; cases h
        | some t₂ =>
          obtain ⟨r₂, q₂, st₂⟩ := t₂
          simp only [h₁, h₂, Option.some.injEq, Prod.mk.injEq] at h
          obtain ⟨-, hq', hst'⟩ := h
          subst hq'
          subst hst'
          have hlvl0 : sbFind p pr.2 = some lvl := hsync (p, lvl) (List.mem_cons_self _ _)
          obtain ⟨hO1, -, hkeys1, hoth1, pr₁, rem₁, hfind₁, hfst₁, hwf₁, hx₁, hp₁, h0₁, hne₁, hle₁⟩ :=
            levelLoopB_effect p lvl h₁ hsym hwf hlvl0
          have hwf₁' : SideWF st₁.OIDs sym 'S' pr₁.2 := by rw [hO1]; exact hwf₁
          have hsync₁ : ∀ pl ∈ rest, sbFind (pl : Nat × Level).1 pr₁.2 = some pl.2 := by
            intro pl hpl
            have hplp : pl.1 ≠ p := by
              have := hhead pl hpl
              omega
            rw [hx₁ pl.1 hplp]
            exact hsync pl (List.mem_cons_of_mem _ hpl)
          obtain ⟨hO2, hkeys2, hoth2, pr₂, hfind₂, hfst₂, hwf₂, hx₂, hnep₂, h0₂, hle₂⟩ :=
            ih h₂ hfind₁ hwf₁' hsync₁ htail
          refine ⟨hO2.trans hO1, hkeys2.trans hkeys1, ?_, pr₂, hfind₂, ?_, ?_, ?_, ?_, ?_, le_trans hle₂ hle₁⟩
          · intro s hs
            rw [hoth2 s hs]
            exact hoth1 s hs
          · rw [hfst₂]
            exact hfst₁
          · rw [← hO1]
            exact hwf₂
          · intro x hxk
            have hxrest : ∀ pl ∈ rest, (pl : Nat × Level).1 ≠ x :=
              fun pl hpl => hxk pl (List.mem_cons_of_mem _ hpl)
            rw [hx₂ x hxrest]
            exact hx₁ x fun hxp => hxk (p, lvl) (List.mem_cons_self _ _) (by rw [hxp])
          · intro pl' hpl' hne
            obtain ⟨l₀', hl₀', hne'⟩ := hnep₂ pl' hpl' hne
            by_cases hpp : pl'.1 = p
            · rw [hpp] at hl₀'
              rw [hp₁] at hl₀'
              cases hl₀'
              exact ⟨lvl, by rw [hpp]; exact hlvl0, hne₁ hne'⟩
            · rw [hx₁ pl'.1 hpp] at hl₀'
              exact ⟨l₀', hl₀', hne'⟩
          · intro h0 pl hpl hple
            have h0₁' : 0 < q₁ := lt_of_lt_of_le h0 hle₂
            rcases List.mem_cons.mp hpl with heq | hmem
            · have hrem : rem₁ = [] := h0₁ h0₁'
              have hpk : ∀ plr ∈ rest, (plr : Nat × Level).1 ≠ p := by
                intro plr hplr
                have := hhead plr hplr
                omega
              rw [heq]
              rw [hx₂ p hpk, hp₁, hrem]
            · exact h0₂ h0 pl hmem hple
    next hcond =>
      cases h
      refine ⟨rfl, rfl, fun s _ => rfl, pr, hsym, rfl, hwf, fun x _ => rfl, ?_, ?_, Nat.le_refl q⟩
      · intro pl' hpl' hne
        exact ⟨pl'.2, mem_sbFind hwf.1 hpl', hne⟩
      · intro h0 pl hpl hple
        exfalso
        have hnp : ¬ p ≤ L := fun hp => hcond ⟨hp, h0⟩
        rcases List.mem_cons.mp hpl with heq | hmem
        · rw [heq] at hple
          exact hnp hple
        · have := hhead pl hmem
          omega

/-- Mirror of `levelLoopB_effect` for `sell_cross`: the consumed side
is the buy side and deletions/updates are routed through the stored
`B` side character. -/
theorem levelLoopS_effect {aOid : Nat} {sym : String} {qty0 L : Nat} (p : Nat)
    (entries : List (Nat × Order)) :
    ∀ {q : Nat} {st : SC} {recs : List OutRec} {q' : Nat} {st' : SC} {pr : BookPair},
      levelLoopS aOid sym qty0 L entries q st = some (recs, q', st') →
      bmFind sym st.book_main = some pr →
      SideWF st.OIDs sym 'B' pr.1 →
      sbFind p pr.1 = some entries →
      st'.OIDs = st.OIDs ∧ st'.ub_end_deref = st.ub_end_deref ∧
      st'.book_main.map (fun e => e.1) = st.book_main.map (fun e => e.1) ∧
      (∀ s, s ≠ sym → bmFind s st'.book_main = bmFind s st.book_main) ∧
      ∃ pr' rem, bmFind sym st'.book_main = some pr' ∧ pr'.2 = pr.2 ∧
        SideWF st.OIDs sym 'B' pr'.1 ∧
        (∀ x, x ≠ p → sbFind x pr'.1 = sbFind x pr.1) ∧
        sbFind p pr'.1 = some rem ∧
        (0 < q' → rem = []) ∧ (rem ≠ [] → entries ≠ []) ∧ q' ≤ q := by
  induction entries with
  | nil =>
    intro q st recs q' st' pr h hsym hwf hlvl
    simp only [levelLoopS] at h
    cases h
    exact ⟨rfl, rfl, rfl, fun s _ => rfl,
      pr, [], hsym, rfl, hwf, fun x _ => rfl, hlvl, fun _ => rfl,
      fun hc => absurd rfl hc, Nat.le_refl q⟩
  | cons e rest ih =>
    intro q st recs q' st' pr h hsym hwf hlvl
    obtain ⟨k, o⟩ := e
    have hlw : LevelWF st.OIDs sym 'B' p ((k, o) :: rest) := hwf.2 _ (sbFind_mem hlvl)
    have hek : EntryLinked st.OIDs sym 'B' p (k, o) := hlw.2 _ (List.mem_cons_self _ _)
    obtain ⟨hk, hpx, hsd, hsymf, otoks, hfind, hsymTok, ⟨sdTok, hsdTok, hsdChar⟩, hpxTok⟩ := hek
    simp only at hk hpx hsd hsymf hfind
    subst hk
    have hrest_lw : LevelWF st.OIDs sym 'B' p rest :=
      ⟨(List.pairwise_cons.mp hlw.1).2, fun e he => hlw.2 e (List.mem_cons_of_mem _ he)⟩
    simp only [levelLoopS] at h
    split at h
    next hqlt =>
      rw [update_in_book_run_B hfind hpxTok hsdTok hsymTok hsdChar] at h
      cases h
      have hins : levelInsert o.oid (⟨o.oid, o.sym, o.side, o.qty - q, o.px⟩ : Order)
          ((o.oid, o) :: rest) = (o.oid, ⟨o.oid, o.sym, o.side, o.qty - q, o.px⟩) :: rest := by
        simp [levelInsert]
      have hmod := @bmLevelModify_bid _ _
        (levelInsert o.oid ⟨o.oid, o.sym, o.side, o.qty - q, o.px⟩) _ _ _ hsym hlvl
      rw [hins] at hmod
      have hlw' : LevelWF st.OIDs sym 'B' p
          ((o.oid, (⟨o.oid, o.sym, o.side, o.qty - q, o.px⟩ : Order)) :: rest) := by
        refine ⟨pairwise_keys_head_replace hlw.1, ?_⟩
        intro e he
        rcases List.mem_cons.mp he with heq | hmem
        · rw [heq]
          exact ⟨rfl, hpx, hsd, hsymf, otoks, hfind, hsymTok, ⟨sdTok, hsdTok, hsdChar⟩, hpxTok⟩
        · exact hlw.2 e (List.mem_cons_of_mem _ hmem)
      refine ⟨rfl, rfl, ?_, ?_,
        (sbSet p ((o.oid, ⟨o.oid, o.sym, o.side, o.qty - q, o.px⟩) :: rest) pr.1, pr.2),
        (o.oid, ⟨o.oid, o.sym, o.side, o.qty - q, o.px⟩) :: rest,
        ?_, rfl, sbSet_SideWF hwf hlw', fun x hx => sbFind_sbSet_other hx _ _,
        sbFind_sbSet_same _ _ _, ?_, fun _ => List.cons_ne_nil _ _, Nat.zero_le q⟩
      · rw [hmod]
        exact bmSet_keys_of_find hsym _
      · intro s hs
        rw [hmod]
        exact bmFind_bmSet_other hs _ _
      · rw [hmod]
        exact bmFind_bmSet_same _ _ _
      · intro h0
        exact absurd h0 (Nat.lt_irrefl 0)
    next hnlt =>
      split at h
      next heqq =>
        rw [delete_from_book_run_B hfind hpxTok hsdTok hsymTok hsdChar] at h
        cases h
        have hdel : levelErase o.oid ((o.oid, o) :: rest) = rest := by simp [levelErase]
        have hmod := @bmLevelModify_bid _ _ (levelErase o.oid) _ _ _ hsym hlvl
        rw [hdel] at hmod
        refine ⟨rfl, rfl, ?_, ?_, (sbSet p rest pr.1, pr.2), rest,
          ?_, rfl, sbSet_SideWF hwf hrest_lw, fun x hx => sbFind_sbSet_other hx _ _,
          sbFind_sbSet_same _ _ _, ?_, fun _ => List.cons_ne_nil _ _, Nat.zero_le q⟩
        · rw [hmod]
          exact bmSet_keys_of_find hsym _
        · intro s hs
          rw [hmod]
          exact bmFind_bmSet_other hs _ _
        · rw [hmod]
          exact bmFind_bmSet_same _ _ _
        · intro h0
          exact absurd h0 (Nat.lt_irrefl 0)
      next hneq =>
        have hdel : levelErase o.oid ((o.oid, o) :: rest) = rest := by simp [levelErase]
        have hmod := @bmLevelModify_bid _ _ (levelErase o.oid) _ _ _ hsym hlvl
        rw [hdel] at hmod
        simp only [delete_from_book_run_B hfind hpxTok hsdTok hsymTok hsdChar, hmod] at h
        cases hrec : levelLoopS aOid sym qty0 L rest (q - o.qty)
            ⟨bmSet sym (sbSet p rest pr.1, pr.2) st.book_main, st.OIDs, st.ub_end_deref⟩ with
        | none => rw [hrec] at h; cases h
        | some t =>
          obtain ⟨recs₁, q₁, st₁⟩ := t
          simp only [hrec, Option.some.injEq, Prod.mk.injEq] at h
          obtain ⟨-, hq', hst'⟩ := h
          subst hq'
          subst hst'
          have hsym₁ : bmFind sym (bmSet sym (sbSet p rest pr.1, pr.2) st.book_main)
              = some (sbSet p rest pr.1, pr.2) := bmFind_bmSet_same _ _ _
          have hwf₁ : SideWF st.OIDs sym 'B' (sbSet p rest pr.1) := sbSet_SideWF hwf hrest_lw
          have hlvl₁ : sbFind p (sbSet p rest pr.1) = some rest := sbFind_sbSet_same _ _ _
          obtain ⟨hOIDs, hub, hkeys, hother, pr'', rem, hfind'', hsnd, hwf'', hx, hp, h0, hne, hle⟩ :=
            ih hrec hsym₁ hwf₁ hlvl₁
          refine ⟨hOIDs, hub, ?_, ?_, pr'', rem, hfind'', hsnd, hwf'', ?_, hp, h0,
            fun _ => List.cons_ne_nil _ _, ?_⟩
          · rw [hkeys]
            exact bmSet_keys_of_find hsym _
          · intro s hs
            rw [hother s hs]
            exact bmFind_bmSet_other hs _ _
          · intro x hx2
            rw [hx x hx2]
            exact sbFind_sbSet_other hx2 _ _
          · omega

/-- Mirror of `buyLoop_effect` for `sell_cross`: the loop walks the
copied buy book in descending price order (a reverse iterator), so the
copy's keys are strictly descending; if the aggressor still has
quantity at the end, every copied level priced at or above its limit
has been left empty. -/
theorem sellLoop_effect {aOid : Nat} {sym : String} {L qty0 : Nat}
    (copy : List (Nat × Level)) :
    ∀ {q : Nat} {st : SC} {recs : List OutRec} {q' : Nat} {st' : SC} {pr : BookPair},
      sellLoop aOid sym L qty0 copy q st = some (recs, q', st') →
      bmFind sym st.book_main = some pr →
      SideWF st.OIDs sym 'B' pr.1 →
      (∀ pl ∈ copy, sbFind (pl : Nat × Level).1 pr.1 = some pl.2) →
      List.Pairwise (fun a b : Nat × Level => b.1 < a.1) copy →
      st'.OIDs = st.OIDs ∧
      st'.book_main.map (fun e => e.1) = st.book_main.map (fun e => e.1) ∧
      (∀ s, s ≠ sym → bmFind s st'.book_main = bmFind s st.book_main) ∧
      ∃ pr', bmFind sym st'.book_main = some pr' ∧ pr'.2 = pr.2 ∧
        SideWF st.OIDs sym 'B' pr'.1 ∧
        (∀ x, (∀ pl ∈ copy, (pl : Nat × Level).1 ≠ x) → sbFind x pr'.1 = sbFind x pr.1) ∧
        (∀ pl' ∈ pr'.1, (pl' : Nat × Level).2 ≠ [] →
          ∃ l₀, sbFind pl'.1 pr.1 = some l₀ ∧ l₀ ≠ []) ∧
        (0 < q' → ∀ pl ∈ copy, L ≤ (pl : Nat × Level).1 → sbFind pl.1 pr'.1 = some []) ∧
        q' ≤ q := by
  induction copy with
  | nil =>
    intro q st recs q' st' pr h hsym hwf hsync hsorted
    simp only [sellLoop] at h
    cases h
    refine ⟨rfl, rfl, fun s _ => rfl, pr, hsym, rfl, hwf, fun x _ => rfl, ?_, ?_, Nat.le_refl q⟩
    · intro pl' hpl' hne
      exact ⟨pl'.2, mem_sbFind hwf.1 hpl', hne⟩
    · intro _ pl hpl
      cases hpl
  | cons e rest ih =>
    intro q st recs q' st' pr h hsym hwf hsync hsorted
    obtain ⟨p, lvl⟩ := e
    obtain ⟨hhead, htail⟩ := List.pairwise_cons.mp hsorted
    simp only [sellLoop] at h
    split at h
    next hcond =>
      cases h₁ : levelLoopS aOid sym qty0 L lvl q st with
      | none => rw [h₁] at h; cases h
      | some t₁ =>
        obtain ⟨r₁, q₁, st₁⟩ := t₁
        cases h₂ : sellLoop aOid sym L qty0 rest q₁ st₁ with
        | none => simp only [h₁, h₂] at h; cases h
        | some t₂ =>
          obtain ⟨r₂, q₂, st₂⟩ := t₂
          simp only [h₁, h₂, Option.some.injEq, Prod.mk.injEq] at h
          obtain ⟨-, hq', hst'⟩ := h
          subst hq'
          subst hst'
          have hlvl0 : sbFind p pr.1 = some lvl := hsync (p, lvl) (List.mem_cons_self _ _)
          obtain ⟨hO1, -, hkeys1, hoth1, pr₁, rem₁, hfind₁, hsnd₁, hwf₁, hx₁, hp₁, h0₁, hne₁, hle₁⟩ :=
            levelLoopS_effect p lvl h₁ hsym hwf hlvl0
          have hwf₁' : SideWF st₁.OIDs sym 'B' pr₁.1 := by rw [hO1]; exact hwf₁
          have hsync₁ : ∀ pl ∈ rest, sbFind (pl : Nat × Level).1 pr₁.1 = some pl.2 := by
            intro pl hpl
            have hplp : pl.1 ≠ p := by
              have := hhead pl hpl
              omega
            rw [hx₁ pl.1 hplp]
            exact hsync pl (List.mem_cons_of_mem _ hpl)
          obtain ⟨hO2, hkeys2, hoth2, pr₂, hfind₂, hsnd₂, hwf₂, hx₂, hnep₂, h0₂, hle₂⟩ :=
            ih h₂ hfind₁ hwf₁' hsync₁ htail
          refine ⟨hO2.trans hO1, hkeys2.trans hkeys1, ?_, pr₂, hfind₂, ?_, ?_, ?_, ?_, ?_, le_trans hle₂ hle₁⟩
          · intro s hs
            rw [hoth2 s hs]
            exact hoth1 s hs
          · rw [hsnd₂]
            exact hsnd₁
          · rw [← hO1]
            exact hwf₂
          · intro x hxk
            have hxrest : ∀ pl ∈ rest, (pl : Nat × Level).1 ≠ x :=
              fun pl hpl => hxk pl (List.mem_cons_of_mem _ hpl)
            rw [hx₂ x hxrest]
            exact hx₁ x fun hxp => hxk (p, lvl) (List.mem_cons_self _ _) (by rw [hxp])
          · intro pl' hpl' hne
            obtain ⟨l₀', hl₀', hne'⟩ := hnep₂ pl' hpl' hne
            by_cases hpp : pl'.1 = p
            · rw [hpp] at hl₀'
              rw [hp₁] at hl₀'
              cases hl₀'
              exact ⟨lvl, by rw [hpp]; exact hlvl0, hne₁ hne'⟩
            · rw [hx₁ pl'.1 hpp] at hl₀'
              exact ⟨l₀', hl₀', hne'⟩
          · intro h0 pl hpl hple
            have h0₁' : 0 < q₁ := lt_of_lt_of_le h0 hle₂
            rcases List.mem_cons.mp hpl with heq | hmem
            · have hrem : rem₁ = [] := h0₁ h0₁'
              have hpk : ∀ plr ∈ rest, (plr : Nat × Level).1 ≠ p := by
                intro plr hplr
                have := hhead plr hplr
                omega
              rw [heq]
              rw [hx₂ p hpk, hp₁, hrem]
            · exact h0₂ h0 pl hmem hple
    next hcond =>
      cases h
      refine ⟨rfl, rfl, fun s _ => rfl, pr, hsym, rfl, hwf, fun x _ => rfl, ?_, ?_, Nat.le_refl q⟩
      · intro pl' hpl' hne
        exact ⟨pl'.2, mem_sbFind hwf.1 hpl', hne⟩
      · intro h0 pl hpl hple
        exfalso
        have hnp : ¬ L ≤ p := fun hp => hcond ⟨hp, h0⟩
        rcases List.mem_cons.mp hpl with heq | hmem
        · rw [heq] at hple
          exact hnp hple
        · have := hhead pl hmem
          omega

theorem bmFind_mem {sym : String} {bm : BookMain} {pr : BookPair}
    (h : bmFind sym bm = some pr) : (sym, pr) ∈ bm := by
  induction bm with
  | nil => cases h
  | cons e rest ih =>
    obtain ⟨s, pr'⟩ := e
    simp only [bmFind] at h
    split at h
    next hpp => cases h; subst hpp; exact List.mem_cons_self _ _
    next => exact List.mem_cons_of_mem _ (ih h)

theorem mem_bmFind {bm : BookMain} {e : String × BookPair}
    (hn : (bm.map (fun x => x.1)).Nodup) (h : e ∈ bm) :
    bmFind e.1 bm = some e.2 := by
  induction bm with
  | nil => cases h
  | cons e' rest ih =>
    obtain ⟨s, pr'⟩ := e'
    simp only [List.map_cons, List.nodup_cons] at hn
    rcases List.mem_cons.mp h with heq | hmem
    · subst heq
      simp [bmFind]
    · have hne : e.1 ≠ s := by
        intro hc
        exact hn.1 (hc ▸ List.mem_map_of_mem (fun x => x.1) hmem)
      simp only [bmFind]
      rw [if_neg hne]
      exact ih hn.2 hmem

/-- The invariant ignores `ub_end_deref` and is stable under appending
fresh entries to the oid index. -/
theorem INV_oids_append {st : SC} (hinv : INV st) (l : List (Nat × List String)) (u : Bool) :
    INV ⟨st.book_main, st.OIDs ++ l, u⟩ := by
  obtain ⟨hn, hb⟩ := hinv
  refine ⟨hn, ?_⟩
  intro e he
  obtain ⟨hB, hS, hsep⟩ := hb e he
  refine ⟨⟨hB.1, ?_⟩, ⟨hS.1, ?_⟩, hsep⟩
  · intro pl hpl
    obtain ⟨hpw, hlk⟩ := hB.2 pl hpl
    refine ⟨hpw, ?_⟩
    intro x hx
    obtain ⟨h1, h2, h3, h4, otoks, hfind, h5, h6, h7⟩ := hlk x hx
    exact ⟨h1, h2, h3, h4, otoks, oidsFind_append hfind, h5, h6, h7⟩
  · intro pl hpl
    obtain ⟨hpw, hlk⟩ := hS.2 pl hpl
    refine ⟨hpw, ?_⟩
    intro x hx
    obtain ⟨h1, h2, h3, h4, otoks, hfind, h5, h6, h7⟩ := hlk x hx
    exact ⟨h1, h2, h3, h4, otoks, oidsFind_append hfind, h5, h6, h7⟩

/-- The invariant is stable under `book_main[symbol]`'s
default-insertion of a missing symbol. -/
theorem INV_ensureSym {st : SC} (hinv : INV st) (sym : String) (u : Bool) :
    INV ⟨ensureSym sym st.book_main, st.OIDs, u⟩ := by
  obtain ⟨hn, hb⟩ := hinv
  cases hf : bmFind sym st.book_main with
  | some pr =>
    rw [ensureSym_of_find hf]
    exact ⟨hn, hb⟩
  | none =>
    rw [ensureSym_of_none hf]
    constructor
    · simp only [List.map_append, List.map_cons, List.map_nil]
      refine List.Nodup.append hn (List.nodup_singleton _) ?_
      intro x hx hx2
      simp only [List.mem_singleton] at hx2
      subst hx2
      obtain ⟨e, he, hex⟩ := List.mem_map.mp hx
      exact bmFind_none_not_mem hf e he hex
    · intro e he
      rcases List.mem_append.mp he with hmem | hmem
      · exact hb e hmem
      · simp only [List.mem_singleton] at hmem
        subst hmem
        exact ⟨⟨List.Pairwise.nil, fun pl hpl => absurd hpl (List.not_mem_nil pl)⟩,
          ⟨List.Pairwise.nil, fun pl hpl => absurd hpl (List.not_mem_nil pl)⟩,
          fun pb hpb => absurd hpb (List.not_mem_nil pb)⟩

theorem oidsFind_append_self {l : List (Nat × List String)} {k : Nat} {v : List String}
    (h : oidsFind k l = none) : oidsFind k (l ++ [(k, v)]) = some v := by
  induction l with
  | nil => simp [oidsFind]
  | cons e rest ih =>
    obtain ⟨k', v'⟩ := e
    simp only [oidsFind, List.cons_append] at h ⊢
    split at h
    next => cases h
    next hkk => rw [if_neg hkk]; exact ih h

theorem bmFind_ensureSym_self (sym : String) (bm : BookMain) :
    bmFind sym (ensureSym sym bm) = some (bmFindD sym (ensureSym sym bm)) := by
  unfold ensureSym bmFindD
  cases hf : bmFind sym bm with
  | some pr => simp [hf]
  | none => simp [bmFind_append_self hf]

/-- Rebuilding the invariant from an old invariant state when exactly
one symbol's book pair changed and the new pair is itself
well-formed. -/
theorem INV_update_sym {st st' : SC} {sym : String} {prNew : BookPair}
    (hinv : INV st)
    (hoids : st'.OIDs = st.OIDs)
    (hkeys : st'.book_main.map (fun e => e.1) = st.book_main.map (fun e => e.1))
    (hfind : bmFind sym st'.book_main = some prNew)
    (hoth : ∀ s, s ≠ sym → bmFind s st'.book_main = bmFind s st.book_main)
    (hB : SideWF st.OIDs sym 'B' prNew.1)
    (hS : SideWF st.OIDs sym 'S' prNew.2)
    (hsep : ∀ pb ∈ prNew.1, ∀ pa ∈ prNew.2,
      (pb : Nat × Level).2 ≠ [] → (pa : Nat × Level).2 ≠ [] → pb.1 < pa.1) :
    INV st' := by
  obtain ⟨hn, hb⟩ := id hinv
  have hn' : (st'.book_main.map (fun e => e.1)).Nodup := by
    rw [hkeys]; exact hn
  refine ⟨hn', ?_⟩
  intro e he
  have hef : bmFind e.1 st'.book_main = some e.2 := mem_bmFind hn' he
  rw [hoids]
  by_cases hes : e.1 = sym
  · have hpe : e.2 = prNew := by
      rw [hes, hfind] at hef
      exact (Option.some.inj hef).symm
    refine ⟨?_, ?_, ?_⟩
    · rw [hes, hpe]; exact hB
    · rw [hes, hpe]; exact hS
    · rw [hpe]; exact hsep
  · rw [hoth e.1 hes] at hef
    exact hb (e.1, e.2) (bmFind_mem hef)

theorem levelErase_LevelWF {oids : List (Nat × List String)} {sym : String} {sd : Char}
    {p oid : Nat} {lvl : Level} (h : LevelWF oids sym sd p lvl) :
    LevelWF oids sym sd p (levelErase oid lvl) :=
  ⟨h.1.sublist (levelErase_sublist oid lvl),
    fun e he => h.2 e ((levelErase_sublist oid lvl).subset he)⟩

/-- Erasing an oid from a bid level (as the `X` path does) preserves
the invariant, whatever level and symbol the stored line names — the
chained `operator[]`s may create an empty symbol entry or an empty
level, neither of which can cross. -/
theorem bmLevelModify_erase_INV_bid {st : SC} {sym : String} {p oid : Nat} {u : Bool}
    (hinv : INV st) :
    INV ⟨bmLevelModify sym true p (levelErase oid) st.book_main, st.OIDs, u⟩ := by
  have hinv₁ : INV ⟨ensureSym sym st.book_main, st.OIDs, u⟩ := INV_ensureSym hinv sym u
  have hfind₀ : bmFind sym (ensureSym sym st.book_main)
      = some (bmFindD sym (ensureSym sym st.book_main)) := bmFind_ensureSym_self sym st.book_main
  obtain ⟨-, hb⟩ := id hinv₁
  obtain ⟨hwfB, hwfS, hsepOld⟩ := hb _ (bmFind_mem hfind₀)
  have hmod : bmLevelModify sym true p (levelErase oid) st.book_main
      = bmSet sym
          (sbSet p (levelErase oid
              ((sbFind p (bmFindD sym (ensureSym sym st.book_main)).1).getD []))
            (bmFindD sym (ensureSym sym st.book_main)).1,
           (bmFindD sym (ensureSym sym st.book_main)).2)
          (ensureSym sym st.book_main) := by
    unfold bmLevelModify
    rfl
  rw [hmod]
  have hlwE : LevelWF st.OIDs sym 'B' p
      (levelErase oid ((sbFind p (bmFindD sym (ensureSym sym st.book_main)).1).getD [])) := by
    cases hP : sbFind p (bmFindD sym (ensureSym sym st.book_main)).1 with
    | none =>
      exact ⟨List.Pairwise.nil, fun e he => absurd he (List.not_mem_nil e)⟩
    | some l₀ =>
      exact levelErase_LevelWF (hwfB.2 (p, l₀) (sbFind_mem hP))
  refine INV_update_sym hinv₁ rfl (bmSet_keys_of_find hfind₀ _) (bmFind_bmSet_same _ _ _)
    (fun s hs => bmFind_bmSet_other hs _ _) (sbSet_SideWF hwfB hlwE) hwfS ?_
  intro pb hpb pa hpa hpbne hpane
  rcases mem_sbSet hpb with heq | hmem
  · subst heq
    cases hP : sbFind p (bmFindD sym (ensureSym sym st.book_main)).1 with
    | none =>
      exfalso
      rw [hP] at hpbne
      exact hpbne rfl
    | some l₀ =>
      rw [hP] at hpbne
      have hl₀ne : l₀ ≠ [] := by
        intro hc
        rw [hc] at hpbne
        exact hpbne rfl
      exact hsepOld (p, l₀) (sbFind_mem hP) pa hpa hl₀ne hpane
  · exact hsepOld pb hmem pa hpa hpbne hpane

/-- Mirror of `bmLevelModify_erase_INV_bid` for the ask side. -/
theorem bmLevelModify_erase_INV_ask {st : SC} {sym : String} {p oid : Nat} {u : Bool}
    (hinv : INV st) :
    INV ⟨bmLevelModify sym false p (levelErase oid) st.book_main, st.OIDs, u⟩ := by
  have hinv₁ : INV ⟨ensureSym sym st.book_main, st.OIDs, u⟩ := INV_ensureSym hinv sym u
  have hfind₀ : bmFind sym (ensureSym sym st.book_main)
      = some (bmFindD sym (ensureSym sym st.book_main)) := bmFind_ensureSym_self sym st.book_main
  obtain ⟨-, hb⟩ := id hinv₁
  obtain ⟨hwfB, hwfS, hsepOld⟩ := hb _ (bmFind_mem hfind₀)
  have hmod : bmLevelModify sym false p (levelErase oid) st.book_main
      = bmSet sym
          ((bmFindD sym (ensureSym sym st.book_main)).1,
           sbSet p (levelErase oid
              ((sbFind p (bmFindD sym (ensureSym sym st.book_main)).2).getD []))
            (bmFindD sym (ensureSym sym st.book_main)).2)
          (ensureSym sym st.book_main) := by
    unfold bmLevelModify
    rfl
  rw [hmod]
  have hlwE : LevelWF st.OIDs sym 'S' p
      (levelErase oid ((sbFind p (bmFindD sym (ensureSym sym st.book_main)).2).getD [])) := by
    cases hP : sbFind p (bmFindD sym (ensureSym sym st.book_main)).2 with
    | none =>
      exact ⟨List.Pairwise.nil, fun e he => absurd he (List.not_mem_nil e)⟩
    | some l₀ =>
      exact levelErase_LevelWF (hwfS.2 (p, l₀) (sbFind_mem hP))
  refine INV_update_sym hinv₁ rfl (bmSet_keys_of_find hfind₀ _) (bmFind_bmSet_same _ _ _)
    (fun s hs => bmFind_bmSet_other hs _ _) hwfB (sbSet_SideWF hwfS hlwE) ?_
  intro pb hpb pa hpa hpbne hpane
  rcases mem_sbSet hpa with heq | hmem
  · subst heq
    cases hP : sbFind p (bmFindD sym (ensureSym sym st.book_main)).2 with
    | none =>
      exfalso
      rw [hP] at hpane
      exact hpane rfl
    | some l₀ =>
      rw [hP] at hpane
      have hl₀ne : l₀ ≠ [] := by
        intro hc
        rw [hc] at hpane
        exact hpane rfl
      exact hsepOld pb hpb (p, l₀) (sbFind_mem hP) hpbne hl₀ne
  · exact hsepOld pb hpb pa hmem hpbne hpane

/-- `delete_from_book` preserves the invariant whenever it returns. -/
theorem delete_from_book_INV {oid : Nat} {st st' : SC}
    (hinv : INV st) (h : delete_from_book oid st = some st') : INV st' := by
  unfold delete_from_book at h
  cases hf : oidsFind oid st.OIDs with
  | none => rw [hf] at h; cases h
  | some otoks =>
    simp only [hf] at h
    cases hp : (otoks.get? PX).bind stod5? with
    | none => simp only [hp] at h; cases h
    | some p =>
      simp only [hp] at h
      cases hsd : otoks.get? SIDE with
      | none => simp only [hsd] at h; cases h
      | some sd =>
        cases hsy : otoks.get? SYMBOL with
        | none => simp only [hsd, hsy] at h; cases h
        | some sym =>
          simp only [hsd, hsy] at h
          split at h
          next =>
            cases h
            exact bmLevelModify_erase_INV_bid hinv
          next =>
            cases h
            exact bmLevelModify_erase_INV_ask hinv
          next =>
            cases h
            exact hinv

/-- The matching loop of `buy_cross` carries the invariant and, when
the aggressor finishes with quantity left, leaves every nonempty ask
level of the symbol strictly above the limit. -/
theorem buy_cross_INV_aux {aOid : Nat} {sym : String} {L q0 qe : Nat} {st₁ st₂ : SC}
    {recs₀ : List OutRec} {pr : BookPair}
    (hinv₁ : INV st₁)
    (hfind₀ : bmFind sym st₁.book_main = some pr)
    (hloop : buyLoop aOid sym L q0 pr.2 q0 st₁ = some (recs₀, qe, st₂)) :
    st₂.OIDs = st₁.OIDs ∧ INV st₂ ∧
    ∃ pr', bmFind sym st₂.book_main = some pr' ∧
      (0 < qe → ∀ pa ∈ pr'.2, (pa : Nat × Level).2 ≠ [] → L < pa.1) := by
  obtain ⟨-, hb⟩ := id hinv₁
  obtain ⟨hwfB, hwfS, hsepOld⟩ := hb _ (bmFind_mem hfind₀)
  obtain ⟨hO, hkeys, hoth, pr', hfind', hfst', hwfS', hx', hnep, h0c, hle⟩ :=
    buyLoop_effect pr.2 hloop hfind₀ hwfS (fun pl hpl => mem_sbFind hwfS.1 hpl) hwfS.1
  have habove : 0 < qe → ∀ pa ∈ pr'.2, (pa : Nat × Level).2 ≠ [] → L < pa.1 := by
    intro hqe pa hpa hpane
    obtain ⟨l₀, hl₀, hl₀ne⟩ := hnep pa hpa hpane
    rcases Nat.lt_or_ge L pa.1 with hlt | hge
    · exact hlt
    · exfalso
      have hempty := h0c hqe (pa.1, l₀) (sbFind_mem hl₀) hge
      have hfull := mem_sbFind hwfS'.1 hpa
      rw [hempty] at hfull
      exact hpane (Option.some.inj hfull).symm
  refine ⟨hO, ?_, pr', hfind', habove⟩
  refine INV_update_sym hinv₁ hO hkeys hfind' hoth ?_ hwfS' ?_
  · rw [hfst']; exact hwfB
  · intro pb hpb pa hpa hpbne hpane
    obtain ⟨l₀, hl₀, hl₀ne⟩ := hnep pa hpa hpane
    rw [hfst'] at hpb
    exact hsepOld pb hpb (pa.1, l₀) (sbFind_mem hl₀) hpbne hl₀ne

/-- Resting a positive residual buy at its limit preserves the
invariant provided every nonempty ask level of the symbol sits
strictly above the limit and the oid index links the new order. -/
theorem add_to_book_INV_B {st : SC} {sym : String} {pr : BookPair} {aOid qe L : Nat}
    {toks : List String} {u : Bool}
    (hinv : INV st)
    (hfind : bmFind sym st.book_main = some pr)
    (habove : ∀ pa ∈ pr.2, (pa : Nat × Level).2 ≠ [] → L < pa.1)
    (hlink : oidsFind aOid st.OIDs = some toks)
    (hsymtok : toks.get? SYMBOL = some sym)
    (hsdtok : ∃ sdTok, toks.get? SIDE = some sdTok ∧ char0 sdTok = 'B')
    (hpxtok : (toks.get? PX).bind stod5? = some L) :
    INV ⟨add_to_book ⟨aOid, sym, 'B', qe, L⟩ st.book_main, st.OIDs, u⟩ := by
  obtain ⟨-, hb⟩ := id hinv
  obtain ⟨hwfB, hwfS, hsepOld⟩ := hb _ (bmFind_mem hfind)
  have hlwL : LevelWF st.OIDs sym 'B' L ((sbFind L pr.1).getD []) := by
    cases hL : sbFind L pr.1 with
    | none => exact ⟨List.Pairwise.nil, fun e he => absurd he (List.not_mem_nil e)⟩
    | some l₀ => exact hwfB.2 (L, l₀) (sbFind_mem hL)
  have hlwNew : LevelWF st.OIDs sym 'B' L
      (levelInsert aOid ⟨aOid, sym, 'B', qe, L⟩ ((sbFind L pr.1).getD [])) := by
    refine ⟨levelInsert_pairwise hlwL.1, ?_⟩
    intro e he
    rcases mem_levelInsert he with heq | hmem
    · rw [heq]
      obtain ⟨sdTok, hsd, hchar⟩ := hsdtok
      exact ⟨rfl, rfl, rfl, rfl, toks, hlink, hsymtok, ⟨sdTok, hsd, hchar⟩, hpxtok⟩
    · exact hlwL.2 e hmem
  have hadd : add_to_book ⟨aOid, sym, 'B', qe, L⟩ st.book_main
      = bmSet sym
          (sbSet L (levelInsert aOid ⟨aOid, sym, 'B', qe, L⟩ ((sbFind L pr.1).getD [])) pr.1,
           pr.2) st.book_main := by
    unfold add_to_book add_to_sub_book bmFindD
    simp only [ensureSym_of_find hfind, hfind, Option.getD_some]
  rw [hadd]
  refine INV_update_sym hinv rfl (bmSet_keys_of_find hfind _) (bmFind_bmSet_same _ _ _)
    (fun s hs => bmFind_bmSet_other hs _ _) (sbSet_SideWF hwfB hlwNew) hwfS ?_
  intro pb hpb pa hpa hpbne hpane
  rcases mem_sbSet hpb with heq | hmem
  · rw [heq]
    exact habove pa hpa hpane
  · exact hsepOld pb hmem pa hpa hpbne hpane

/-- `buy_cross` preserves the invariant, given that the aggressor line
was recorded under its oid (as `action` does just before the call) and
carries a `B` side character. -/
theorem buy_cross_INV {toks : List String} {st : SC} {recs : List OutRec} {st' : SC}
    (hinv : INV st)
    (hself : ∀ oid, (toks.get? OID).bind stoi? = some oid → oidsFind oid st.OIDs = some toks)
    (hsideB : ∀ sd, toks.get? SIDE = some sd → char0 sd = 'B')
    (h : buy_cross toks st = some (recs, st')) : INV st' := by
  cases hsym : toks.get? SYMBOL with
  | none => simp only [buy_cross, hsym] at h; cases h
  | some sym =>
    simp only [buy_cross, hsym] at h
    cases hpx : (toks.get? PX).bind stod5? with
    | none => rw [hpx] at h; cases h
    | some L =>
      cases hq : (toks.get? QTY).bind stoi? with
      | none => rw [hpx, hq] at h; cases h
      | some q0 =>
        cases ho : (toks.get? OID).bind stoi? with
        | none => rw [hpx, hq, ho] at h; cases h
        | some aOid =>
          cases hloop : buyLoop aOid sym L q0 (bmFindD sym (ensureSym sym st.book_main)).2 q0
              ⟨ensureSym sym st.book_main, st.OIDs, st.ub_end_deref⟩ with
          | none => simp only [hpx, hq, ho, hloop] at h; cases h
          | some t =>
            obtain ⟨recs₀, qe, st₂⟩ := t
            simp only [hpx, hq, ho, hloop] at h
            have hinv₁ : INV ⟨ensureSym sym st.book_main, st.OIDs, st.ub_end_deref⟩ :=
              INV_ensureSym hinv sym st.ub_end_deref
            have hfind₀ : bmFind sym (ensureSym sym st.book_main)
                = some (bmFindD sym (ensureSym sym st.book_main)) :=
              bmFind_ensureSym_self sym st.book_main
            obtain ⟨hO, hinv₂, pr', hfind', habove⟩ :=
              buy_cross_INV_aux hinv₁ hfind₀ hloop
            split at h
            next hqe =>
              cases hsd : toks.get? SIDE with
              | none => rw [hsd] at h; cases h
              | some sd =>
                rw [hsd] at h
                simp only [Option.some.injEq, Prod.mk.injEq] at h
                obtain ⟨-, hst'⟩ := h
                subst hst'
                have hB := hsideB sd hsd
                rw [hB]
                have hlink : oidsFind aOid st₂.OIDs = some toks := by
                  rw [hO]; exact hself aOid ho
                exact add_to_book_INV_B hinv₂ hfind' (habove hqe) hlink hsym ⟨sd, hsd, hB⟩ hpx
            next hqe =>
              simp only [Option.some.injEq, Prod.mk.injEq] at h
              obtain ⟨-, hst'⟩ := h
              subst hst'
              exact hinv₂

/-- Mirror of `buy_cross_INV_aux`: the matching loop of `sell_cross`
walks the reversed bid copy and, when quantity remains, leaves every
nonempty bid level of the symbol strictly below the limit. -/
theorem sell_cross_INV_aux {aOid : Nat} {sym : String} {L q0 qe : Nat} {st₁ st₂ : SC}
    {recs₀ : List OutRec} {pr : BookPair}
    (hinv₁ : INV st₁)
    (hfind₀ : bmFind sym st₁.book_main = some pr)
    (hloop : sellLoop aOid sym L q0 pr.1.reverse q0 st₁ = some (recs₀, qe, st₂)) :
    st₂.OIDs = st₁.OIDs ∧ INV st₂ ∧
    ∃ pr', bmFind sym st₂.book_main = some pr' ∧
      (0 < qe → ∀ pb ∈ pr'.1, (pb : Nat × Level).2 ≠ [] → pb.1 < L) := by
  obtain ⟨-, hb⟩ := id hinv₁
  obtain ⟨hwfB, hwfS, hsepOld⟩ := hb _ (bmFind_mem hfind₀)
  obtain ⟨hO, hkeys, hoth, pr', hfind', hsnd', hwfB', hx', hnep, h0c, hle⟩ :=
    sellLoop_effect pr.1.reverse hloop hfind₀ hwfB
      (fun pl hpl => mem_sbFind hwfB.1 (List.mem_reverse.mp hpl))
      (List.pairwise_reverse.mpr hwfB.1)
  have hbelow : 0 < qe → ∀ pb ∈ pr'.1, (pb : Nat × Level).2 ≠ [] → pb.1 < L := by
    intro hqe pb hpb hpbne
    obtain ⟨l₀, hl₀, hl₀ne⟩ := hnep pb hpb hpbne
    rcases Nat.lt_or_ge pb.1 L with hlt | hge
    · exact hlt
    · exfalso
      have hempty := h0c hqe (pb.1, l₀) (List.mem_reverse.mpr (sbFind_mem hl₀)) hge
      have hfull := mem_sbFind hwfB'.1 hpb
      rw [hempty] at hfull
      exact hpbne (Option.some.inj hfull).symm
  refine ⟨hO, ?_, pr', hfind', hbelow⟩
  refine INV_update_sym hinv₁ hO hkeys hfind' hoth hwfB' ?_ ?_
  · rw [hsnd']; exact hwfS
  · intro pb hpb pa hpa hpbne hpane
    obtain ⟨l₀, hl₀, hl₀ne⟩ := hnep pb hpb hpbne
    rw [hsnd'] at hpa
    exact hsepOld (pb.1, l₀) (sbFind_mem hl₀) pa hpa hl₀ne hpane

/-- Resting a positive residual sell at its limit preserves the
invariant provided every nonempty bid level of the symbol sits
strictly below the limit. -/
theorem add_to_book_INV_S {st : SC} {sym : String} {pr : BookPair} {aOid qe L : Nat}
    {toks : List String} {u : Bool}
    (hinv : INV st)
    (hfind : bmFind sym st.book_main = some pr)
    (hbelow : ∀ pb ∈ pr.1, (pb : Nat × Level).2 ≠ [] → pb.1 < L)
    (hlink : oidsFind aOid st.OIDs = some toks)
    (hsymtok : toks.get? SYMBOL = some sym)
    (hsdtok : ∃ sdTok, toks.get? SIDE = some sdTok ∧ char0 sdTok = 'S')
    (hpxtok : (toks.get? PX).bind stod5? = some L) :
    INV ⟨add_to_book ⟨aOid, sym, 'S', qe, L⟩ st.book_main, st.OIDs, u⟩ := by
  obtain ⟨-, hb⟩ := id hinv
  obtain ⟨hwfB, hwfS, hsepOld⟩ := hb _ (bmFind_mem hfind)
  have hlwL : LevelWF st.OIDs sym 'S' L ((sbFind L pr.2).getD []) := by
    cases hL : sbFind L pr.2 with
    | none => exact ⟨List.Pairwise.nil, fun e he => absurd he (List.not_mem_nil e)⟩
    | some l₀ => exact hwfS.2 (L, l₀) (sbFind_mem hL)
  have hlwNew : LevelWF st.OIDs sym 'S' L
      (levelInsert aOid ⟨aOid, sym, 'S', qe, L⟩ ((sbFind L pr.2).getD [])) := by
    refine ⟨levelInsert_pairwise hlwL.1, ?_⟩
    intro e he
    rcases mem_levelInsert he with heq | hmem
    · rw [heq]
      obtain ⟨sdTok, hsd, hchar⟩ := hsdtok
      exact ⟨rfl, rfl, rfl, rfl, toks, hlink, hsymtok, ⟨sdTok, hsd, hchar⟩, hpxtok⟩
    · exact hlwL.2 e hmem
  have hadd : add_to_book ⟨aOid, sym, 'S', qe, L⟩ st.book_main
      = bmSet sym
          (pr.1,
           sbSet L (levelInsert aOid ⟨aOid, sym, 'S', qe, L⟩ ((sbFind L pr.2).getD [])) pr.2)
          st.book_main := by
    unfold add_to_book add_to_sub_book bmFindD
    simp only [ensureSym_of_find hfind, hfind, Option.getD_some]
  rw [hadd]
  refine INV_update_sym hinv rfl (bmSet_keys_of_find hfind _) (bmFind_bmSet_same _ _ _)
    (fun s hs => bmFind_bmSet_other hs _ _) hwfB (sbSet_SideWF hwfS hlwNew) ?_
  intro pb hpb pa hpa hpbne hpane
  rcases mem_sbSet hpa with heq | hmem
  · rw [heq]
    exact hbelow pb hpb hpbne
  · exact hsepOld pb hpb pa hmem hpbne hpane

/-- `sell_cross` preserves the invariant under the same linkage
hypotheses as `buy_cross_INV`, with an `S` side character. -/
theorem sell_cross_INV {toks : List String} {st : SC} {recs : List OutRec} {st' : SC}
    (hinv : INV st)
    (hself : ∀ oid, (toks.get? OID).bind stoi? = some oid → oidsFind oid st.OIDs = some toks)
    (hsideS : ∀ sd, toks.get? SIDE = some sd → char0 sd = 'S')
    (h : sell_cross toks st = some (recs, st')) : INV st' := by
  cases hsym : toks.get? SYMBOL with
  | none => simp only [sell_cross, hsym] at h; cases h
  | some sym =>
    simp only [sell_cross, hsym] at h
    cases hpx : (toks.get? PX).bind stod5? with
    | none => rw [hpx] at h; cases h
    | some L =>
      cases hq : (toks.get? QTY).bind stoi? with
      | none => rw [hpx, hq] at h; cases h
      | some q0 =>
        cases ho : (toks.get? OID).bind stoi? with
        | none => rw [hpx, hq, ho] at h; cases h
        | some aOid =>
          cases hloop : sellLoop aOid sym L q0
              (List.reverse (bmFindD sym (ensureSym sym st.book_main)).1) q0
              ⟨ensureSym sym st.book_main, st.OIDs, st.ub_end_deref⟩ with
          | none => simp only [hpx, hq, ho, hloop] at h; cases h
          | some t =>
            obtain ⟨recs₀, qe, st₂⟩ := t
            simp only [hpx, hq, ho, hloop] at h
            have hinv₁ : INV ⟨ensureSym sym st.book_main, st.OIDs, st.ub_end_deref⟩ :=
              INV_ensureSym hinv sym st.ub_end_deref
            have hfind₀ : bmFind sym (ensureSym sym st.book_main)
                = some (bmFindD sym (ensureSym sym st.book_main)) :=
              bmFind_ensureSym_self sym st.book_main
            obtain ⟨hO, hinv₂, pr', hfind', hbelow⟩ :=
              sell_cross_INV_aux hinv₁ hfind₀ hloop
            split at h
            next hqe =>
              cases hsd : toks.get? SIDE with
              | none => rw [hsd] at h; cases h
              | some sd =>
                rw [hsd] at h
                simp only [Option.some.injEq, Prod.mk.injEq] at h
                obtain ⟨-, hst'⟩ := h
                subst hst'
                have hS := hsideS sd hsd
                rw [hS]
                have hlink : oidsFind aOid st₂.OIDs = some toks := by
                  rw [hO]; exact hself aOid ho
                exact add_to_book_INV_S hinv₂ hfind' (hbelow hqe) hlink hsym ⟨sd, hsd, hS⟩ hpx
            next hqe =>
              simp only [Option.some.injEq, Prod.mk.injEq] at h
              obtain ⟨-, hst'⟩ := h
              subst hst'
              exact hinv₂

/-- `cross_order` preserves the invariant: the two matching routines
do under the side-character facts of their dispatch branch, and the
bad-side branch leaves the state untouched. -/
theorem cross_order_INV {toks : List String} {st : SC} {out : List OutRec} {st' : SC}
    (hinv : INV st)
    (hself : ∀ oid, (toks.get? OID).bind stoi? = some oid → oidsFind oid st.OIDs = some toks)
    (h : cross_order toks st = some (out, st')) : INV st' := by
  unfold cross_order at h
  cases hsd : toks.get? SIDE with
  | none => rw [hsd] at h; cases h
  | some sd =>
    simp only [hsd] at h
    split at h
    next hchar =>
      refine buy_cross_INV hinv hself ?_ h
      intro sd' hsd'
      rw [hsd] at hsd'
      cases hsd'
      exact hchar
    next hchar =>
      refine sell_cross_INV hinv hself ?_ h
      intro sd' hsd'
      rw [hsd] at hsd'
      cases hsd'
      exact hchar
    next =>
      cases h
      exact hinv

/-- Every defined step of `action` preserves the invariant. -/
theorem action_INV {toks : List String} {st : SC} {out : List OutRec} {st' : SC}
    (hinv : INV st) (h : action toks st = some (out, st')) : INV st' := by
  unfold action at h
  cases hchk : check_malformed_input toks with
  | none => rw [hchk] at h; cases h
  | some p =>
    obtain ⟨b, outm⟩ := p
    simp only [hchk] at h
    cases b with
    | true =>
      cases h
      exact hinv
    | false =>
      cases hact : toks.get? ACTION with
      | none => rw [hact] at h; cases h
      | some a =>
        simp only [hact] at h
        split at h
        next =>
          cases ho : (toks.get? OID).bind stoi? with
          | none => rw [ho] at h; cases h
          | some oid =>
            simp only [ho] at h
            cases hdup : oidsFind oid st.OIDs with
            | some v =>
              rw [hdup] at h
              cases h
              exact hinv
            | none =>
              rw [hdup] at h
              have hinv' : INV ⟨st.book_main, st.OIDs ++ [(oid, toks)], st.ub_end_deref⟩ :=
                INV_oids_append hinv _ _
              refine cross_order_INV hinv' ?_ h
              intro oid' hoid'
              rw [ho] at hoid'
              cases hoid'
              exact oidsFind_append_self hdup
        next =>
          cases h
          exact hinv
        next =>
          cases ho : (toks.get? OID).bind stoi? with
          | none => rw [ho] at h; cases h
          | some oid =>
            simp only [ho] at h
            cases hdel : delete_from_book oid st with
            | none => rw [hdel] at h; cases h
            | some st₁ =>
              rw [hdel] at h
              cases h
              exact delete_from_book_INV hinv hdel
        next =>
          cases h
          exact hinv

/-- The invariant holds after any defined run of actions from an
invariant state. -/
theorem runActions_INV {acts : List (List String)} :
    ∀ {st : SC} {outs : List (List OutRec)} {st' : SC},
      runActions acts st = some (outs, st') → INV st → INV st' := by
  induction acts with
  | nil =>
    intro st outs st' h hinv
    simp only [runActions] at h
    cases h
    exact hinv
  | cons a rest ih =>
    intro st outs st' h hinv
    cases ha : action a st with
    | none => simp only [runActions, ha] at h; cases h
    | some p =>
      obtain ⟨out, st₁⟩ := p
      cases hr : runActions rest st₁ with
      | none => simp only [runActions, ha, hr] at h; cases h
      | some p2 =>
        obtain ⟨outs₁, st₂⟩ := p2
        simp only [runActions, ha, hr, Option.some.injEq, Prod.mk.injEq] at h
        obtain ⟨-, h2⟩ := h
        rw [← h2]
        exact ih hr (action_INV hinv ha)

/-- The invariant holds of the freshly constructed engine. -/
theorem INV_init : INV SC.init :=
  ⟨List.nodup_nil, fun e he => absurd he (List.not_mem_nil e)⟩

/-- The invariant entails the spec's no-cross property. -/
theorem INV_uncrossed {st : SC} (hinv : INV st) : Uncrossed st := by
  intro e he pb hpb pa hpa hpbne hpane
  exact (hinv.2 e he).2.2 pb hpb pa hpa hpbne hpane

/-- C3.  No-cross rest: after every defined run of any action stream
from the initial state, for every symbol and every pair of a nonempty
bid level and a nonempty ask level of that symbol's book, the bid
level's price is strictly below the ask level's price — equivalently,
best bid < best ask or at least one side of the symbol's book is
empty, after each action (apply the theorem to each prefix of the
stream). -/
theorem c3_no_cross_rest (acts : List (List String)) (outs : List (List OutRec)) (st : SC)
    (h : runActions acts SC.init = some (outs, st)) : Uncrossed st :=
  INV_uncrossed (runActions_INV h INV_init)

/-- Closed instantiation of `c3_no_cross_rest` on the source header's
own example session (matching and cancellation on both sides followed
by a multi-level sweep). -/
theorem c3_no_cross_rest_witness :
    Uncrossed ((runActions exampleSession SC.init).getD ([], SC.init)).2 :=
  c3_no_cross_rest exampleSession _ _ rfl

end SimpleCross
